import Mathlib

/-!
Verification model of the metalsmith-nestedlayouts plugin (lib/index.js).

The source file contains two variants of the plugin: the "chain" variant
(render walks the whole layout chain per file) and the "nested" variant
(renderNestedLayouts pre-renders the layout forest, then content files are
rendered in a single step).  Both are embedded below.

External collaborators (the minimatch glob engine, UTF-8 detection, and the
jstransformer registry) are passed in as function parameters; the transformer
cache in the source is semantically transparent (it caches the pure lookup),
so getTransformer is modelled by the lookup itself.  JS objects are modelled
as association lists whose FIRST matching entry wins, so Object.assign
overlays are written by prepending.  The per-pass Symbol-keyed markers that
createLayoutTree stores on file records (seen / finished / children) are
modelled as side tables keyed by record name, which is equivalent because the
symbols are fresh per pass.
-/

namespace MNL

/-- JS values stored in render contexts and front-matter data. -/
inductive Val where
  | vnat (n : Nat)
  | vstr (s : String)
  | vbool (b : Bool)
deriving DecidableEq, Repr

/-- A JS object: association list, first matching key wins on lookup. -/
abbrev Obj := List (String × Val)

/-- Property lookup on a JS object. -/
def lookupObj (o : Obj) (k : String) : Option Val :=
  match o with
  | [] => none
  | (k₁, v) :: t => if k₁ = k then some v else lookupObj t k

/-- The `layout` property of a file record: a string, the literal `false`,
or absent (`undefined`). -/
inductive LayoutRef where
  | str (s : String)
  | fls
  | absent
deriving DecidableEq, Repr

/-- One metalsmith file record: its text payload, its `layout` property and
its remaining front-matter data. -/
structure FileRecord where
  contents : String
  layout : LayoutRef
  data : Obj
deriving DecidableEq, Repr

/-- A file mapping / layout collection: name-keyed records, in JS object
insertion order. -/
abbrev RecordMap := List (String × FileRecord)

/-- Generic association-list lookup (first entry wins), modelling
`object[key]`. -/
def alook {β : Type} (l : List (String × β)) (k : String) : Option β :=
  match l with
  | [] => none
  | (k₁, v) :: t => if k₁ = k then some v else alook t k

/-- Models `Object.keys`. -/
def keysOf {β : Type} (l : List (String × β)) : List String := l.map Prod.fst

/-- In-place mutation of one record of a mapping (`files[k] = ...` on an
existing key): the value at `k` is updated, everything else is untouched. -/
def updateAt {β : Type} (l : List (String × β)) (k : String) (u : β → β) :
    List (String × β) :=
  l.map (fun pr => if pr.1 = k then (pr.1, u pr.2) else pr)

/-- In-place mutation of every record of a mapping. -/
def mapVals {β : Type} (l : List (String × β)) (u : β → β) :
    List (String × β) :=
  l.map (fun pr => (pr.1, u pr.2))

/-- The `pattern` option: a string, an array of strings, or anything else. -/
inductive PatternOpt where
  | pstr (s : String)
  | parr (l : List String)
  | pother
deriving DecidableEq, Repr

/-- Plugin settings after defaults are applied.  The layout directory only
enters the model through the relative prefix computed by setLayoutsPrefix,
which is passed separately. -/
structure Settings where
  pattern : PatternOpt
  deflt : Option String
  engineOptions : String
deriving DecidableEq, Repr

/-- getLayout: `if (file.layout || file.layout === false) return file.layout;
return settings.default;`.  A non-empty layout string is truthy; `""` is
falsy and not `=== false`, so it falls through to the default. -/
def getLayout (file : FileRecord) (settings : Settings) : LayoutRef :=
  match file.layout with
  | .str s =>
      if s = "" then
        match settings.deflt with
        | some d => .str d
        | none => .absent
      else .str s
  | .fls => .fls
  | .absent =>
      match settings.deflt with
      | some d => .str d
      | none => .absent

/-- Models `value.split(sep)` on character lists (JS String.split with a one
character separator): `"x."` splits to `["x", ""]`, `""` to `[""]`. -/
def charSplit (c : Char) : List Char → List (List Char)
  | [] => [[]]
  | x :: t =>
    let r := charSplit c t
    if x = c then [] :: r
    else
      match r with
      | h :: r₁ => (x :: h) :: r₁
      | [] => [[x]]

/-- Whether the first list is a prefix of the second. -/
def prefixOfL : List Char → List Char → Bool
  | [], _ => true
  | _ :: _, [] => false
  | a :: p, b :: s => a = b && prefixOfL p s

/-- Models `s.startsWith(pre)`. -/
def strStarts (s pre : String) : Bool := prefixOfL pre.data s.data

/-- Models `s.endsWith(suf)`. -/
def strEnds (s suf : String) : Bool := prefixOfL suf.data.reverse s.data.reverse

/-- Dropping the last `n` characters. -/
def strDropRight (s : String) (n : Nat) : String :=
  ⟨s.data.take (s.data.length - n)⟩

/-- Dropping the first character (after a `!`). -/
def strTail (s : String) : String := ⟨s.data.drop 1⟩

/-- Models `layout.split('.').pop()`: the substring after the last dot (the whole
string when there is no dot). -/
def lastExt (s : String) : String := ⟨(charSplit '.' s.data).getLastD []⟩

/-- An external transformer registry: extension to optional render function
`(template, engineOptions, locals) -> output`.  Models
inputformat-to-jstransformer plus jstransformer; the source's `cache` is
transparent (it memoises this pure lookup). -/
abbrev TransformerMap := String → Option (String → String → Obj → String)

/-- validate: whether a file should be processed.  Checks, in source order:
the resolved layout is truthy; it contains a `.`; the contents are UTF-8;
a transformer exists for the extension after the last dot.  The source
returns the transformer handle, coerced to a boolean by `.filter`. -/
def validate (utf8 : String → Bool) (tfs : TransformerMap)
    (files : RecordMap) (settings : Settings) (filename : String) : Bool :=
  match alook files filename with
  | none => false
  | some file =>
    match getLayout file settings with
    | .str s =>
        if s = "" then false
        else if ¬ (s.data.contains '.') then false
        else if ¬ utf8 file.contents then false
        else (tfs (lastExt s)).isSome
    | _ => false

/-- Models `path.join(a, b)` for the two shapes the plugin builds
(`layoutsPrefix` joined with a glob). -/
def joinGlob (a b : String) : String := if a = "" then b else a ++ "/" ++ b

/-- Models `path.parse(name).base`: the segment after the last `/`. -/
def baseName (s : String) : String := ⟨(charSplit '/' s.data).getLastD s.data⟩

/-- multimatch aggregation (external dependency, modelled from its documented
semantics): patterns are processed left to right; a positive pattern unions
in the keys it matches, a `!`-pattern removes the keys it matches.  The
per-pattern glob test is the external parameter `glob`. -/
def multimatch (glob : String → String → Bool) (keys : List String)
    (pats : List String) : List String :=
  pats.foldl
    (fun acc p =>
      if strStarts p "!" then acc.filter (fun k => ¬ glob (strTail p) k)
      else acc ++ (keys.filter (fun k => glob p k ∧ k ∉ acc)))
    []

/-- A concrete glob engine used to instantiate the external `glob` parameter
on the pattern shapes the plugin builds: `**` matches everything,
`dir/**` and `dir/**/*` match paths under `dir/`, anything else matches
literally. -/
def globFn (pat k : String) : Bool :=
  if pat = "**" then true
  else if strEnds pat "/**" then strStarts k (strDropRight pat 2)
  else if strEnds pat "/**/*" then strStarts k (strDropRight pat 4)
  else pat = k

/-! ## Dependency tree construction (nested variant, createLayoutTree) -/

/-- Truthiness of `if (file.layout)` inside createLayoutTree: only a non-empty
layout string counts as a parent reference. -/
def hasParent (r : FileRecord) : Option String :=
  match r.layout with
  | .str s => if s = "" then none else some s
  | _ => none

/-- The parent of a layout name in a collection (none when the name is not
in the collection or its record has no truthy layout). -/
def parentOf (C : RecordMap) (x : String) : Option String :=
  (alook C x).bind hasParent

/-- Following the parent relation `n` steps from `x`. -/
def iterParent (C : RecordMap) : Nat → String → Option String
  | 0, x => some x
  | n + 1, x => (parentOf C x).bind (iterParent C n)

/-- The parent relation of the collection has a cycle (length `n+1 ≥ 1`,
self-reference included). -/
def HasCycle (C : RecordMap) : Prop :=
  ∃ x n, iterParent C (n + 1) x = some x

/-- Every truthy layout reference of a record in the collection resolves to
a collection entry (decidable form). -/
def allResolve (C : RecordMap) : Bool :=
  (keysOf C).all (fun x =>
    match parentOf C x with
    | some p => (alook C p).isSome
    | none => true)

/-- Some record's truthy layout reference is missing from the collection
(decidable form). -/
def hasDangling (C : RecordMap) : Bool :=
  (keysOf C).any (fun x =>
    match parentOf C x with
    | some p => (alook C p).isNone
    | none => false)


/-- The traversal state of createLayoutTree: the Symbol-keyed markers of the
source (being-visited, finished, children arrays) as side tables, plus the
roots array. -/
structure TreeSt where
  seen : List String
  finished : List String
  ctbl : List (String × List String)
  roots : List String
deriving DecidableEq, Repr

/-- Errors thrown during tree construction: the explicit circular-dependency
throw, and the TypeError raised by `parent[children]` when the parent record
is `undefined`. -/
inductive TreeErr where
  | circular (name : String)
  | typeErrored (missing : String)
deriving DecidableEq, Repr

/-- Outcome of (part of) the tree walk. -/
inductive TreeOut where
  | ok (st : TreeSt)
  | err (e : TreeErr)
  | fuelOut
deriving DecidableEq, Repr

/-- Whether a tree-walk outcome is the circular-dependency error. -/
def isCircularErr : TreeOut → Bool
  | .err (.circular _) => true
  | _ => false

/-- Whether a tree-walk outcome is the undefined-parent TypeError. -/
def isTypeErr : TreeOut → Bool
  | .err (.typeErrored _) => true
  | _ => false

/-- Models `parent[children].push(name)` (or creating the array): appends `c` to
`p`'s children list in the side table. -/
def addChild (tbl : List (String × List String)) (p c : String) :
    List (String × List String) :=
  match tbl with
  | [] => [(p, [c])]
  | (p₁, l) :: t => if p₁ = p then (p₁, l ++ [c]) :: t else (p₁, l) :: addChild t p c

/-- Models `file[finished] = true; return delete file[seen];`. -/
def finishNode (st : TreeSt) (name : String) : TreeSt :=
  { st with finished := name :: st.finished, seen := st.seen.erase name }

/-- createLayoutTree for one name (fuel-indexed; the redundant inner
`if (!file[finished])` of the source is dropped because the early return has
already excluded finished records).  The parent record is looked up before
the recursive call in the source, but the lookup is pure so re-reading it
after the recursion is equivalent. -/
def createLayoutTree (C : RecordMap) : Nat → String → TreeSt → TreeOut
  | 0, _, _ => .fuelOut
  | fuel + 1, name, st =>
    match alook C name with
    | none => .ok st
    | some file =>
      if name ∈ st.finished then .ok st
      else if name ∈ st.seen then .err (.circular name)
      else
        let st₁ : TreeSt := { st with seen := name :: st.seen }
        match hasParent file with
        | none => .ok (finishNode { st₁ with roots := st₁.roots ++ [name] } name)
        | some pname =>
          match createLayoutTree C fuel pname st₁ with
          | .ok st₂ =>
            match alook C pname with
            | none => .err (.typeErrored pname)
            | some _ =>
              .ok (finishNode { st₂ with ctbl := addChild st₂.ctbl pname name } name)
          | out => out

/-- One step of the driver loop: a thrown error aborts the remaining
iterations of the forEach. -/
def treeStep (C : RecordMap) (acc : TreeOut) (name : String) : TreeOut :=
  match acc with
  | .ok st => createLayoutTree C (C.length + 1) name st
  | out => out

/-- The driver loop `Object.keys(collection).forEach(createLayoutTree)`,
with fuel `|keys| + 1`, which is always sufficient (no path of unvisited
names is longer than the key list). -/
def buildTree (C : RecordMap) : TreeOut :=
  (keysOf C).foldl (treeStep C) (.ok ⟨[], [], [], []⟩)

/-! ## Rendering (nested variant) -/

/-- The enumerable properties of a file record as one JS object: its
front-matter data plus the `contents` and (when present) `layout`
properties.  The special properties are listed first so that a data entry
reusing their key cannot shadow them, matching the single property slot of
a JS object. -/
def objOf (r : FileRecord) : Obj :=
  ("contents", .vstr r.contents) ::
    (match r.layout with
     | .str s => [("layout", .vstr s)]
     | .fls => [("layout", .vbool false)]
     | .absent => []) ++ r.data

/-- Models `Object.assign(target, src)`: with first-wins lookup, the source object
is prepended. -/
def assignObj (target src : Obj) : Obj := src ++ target

/-- The render context of the nested variant's render:
`Object.assign({}, metadata, file, { contents })`. -/
def nestedLocals (metadata : Obj) (file : FileRecord) (contents : String) : Obj :=
  ("contents", .vstr contents) :: assignObj metadata (objOf file)

/-- Errors thrown inside a render step: the explicit missing-layout throw,
and the TypeError raised when `layoutname.split` is applied to a non-string
layout or `.render` is applied to a `false` transformer. -/
inductive RenderErr where
  | cannotFind (layout : String)
  | jsTypeErrored
  | noFuel
deriving DecidableEq, Repr

/-- render (nested variant): stringify the file, merge locals, look up the
layout record (throwing `cannot find layout` when absent), run the
transformer, and replace the file's contents in `files`. -/
def render (tfs : TransformerMap) (metadata : Obj) (settings : Settings)
    (files collection : RecordMap) (filename : String) :
    Except RenderErr RecordMap :=
  match alook files filename with
  | none => .error .jsTypeErrored
  | some file =>
    match getLayout file settings with
    | .str layoutname =>
      let extension := lastExt layoutname
      let contents := file.contents
      let locals := nestedLocals metadata file contents
      match alook collection layoutname with
      | none => .error (.cannotFind layoutname)
      | some layoutfile =>
        match tfs extension with
        | none => .error .jsTypeErrored
        | some transform =>
          .ok (updateAt files filename (fun r =>
            { r with contents :=
                transform layoutfile.contents settings.engineOptions locals }))
    | _ => .error .jsTypeErrored

/-- renderLayouts (nested variant): for each parent of the level, chain the
batch of its direct children, then recurse into that child level before
moving to the next parent.  Produces the chained batches in order. -/
def renderLayouts (tbl : List (String × List String)) :
    Nat → List String → List (List String)
  | 0, _ => []
  | fuel + 1, level =>
    level.foldr
      (fun parent acc =>
        (match alook tbl parent with
         | some childlevel => childlevel :: renderLayouts tbl fuel childlevel
         | none => []) ++ acc)
      []

/-- The layout render events in execution order: each batch's promises run
their executors synchronously in list order, and batches are chained
sequentially, so execution order is the concatenation of the batches. -/
def renderEvents (tbl : List (String × List String)) (fuel : Nat)
    (level : List String) : List String :=
  (renderLayouts tbl fuel level).flatten

/-- Running the chained layout renders in order, threading the collection
(for layouts, `files` and `collection` are the same map); the first
rejection aborts the chain. -/
def runEvents (tfs : TransformerMap) (metadata : Obj) (settings : Settings) :
    List String → RecordMap → Except RenderErr RecordMap
  | [], C => .ok C
  | n :: t, C =>
    match render tfs metadata settings C C n with
    | .ok C₁ => runEvents tfs metadata settings t C₁
    | .error e => .error e

/-- Result of renderNestedLayouts: on success, the executed render events,
the cleaned-up collection and the post-cleanup marker tables. -/
structure RNLok where
  events : List String
  coll : RecordMap
  ctbl : List (String × List String)
  fin : List String
  seenL : List String
deriving DecidableEq, Repr

inductive RNLOut where
  | ok (r : RNLok)
  | rerr (e : RenderErr)
  | terr (e : TreeErr)
  | fuelOut
deriving DecidableEq, Repr

/-- renderNestedLayouts: build the tree (synchronously, before any render),
chain and run the layout renders, then clean up by deleting every
collection record's children and finished markers and its `layout`
property. -/
def renderNestedLayouts (tfs : TransformerMap) (metadata : Obj)
    (settings : Settings) (C : RecordMap) : RNLOut :=
  match buildTree C with
  | .err e => .terr e
  | .fuelOut => .fuelOut
  | .ok st =>
    let events := renderEvents st.ctbl (C.length + 1) st.roots
    match runEvents tfs metadata settings events C with
    | .error e => .rerr e
    | .ok C₁ =>
      .ok { events := events
            coll := mapVals C₁ (fun r => { r with layout := .absent })
            ctbl := st.ctbl.filter (fun pr => pr.1 ∉ keysOf C)
            fin := st.finished.filter (fun x => x ∉ keysOf C)
            seenL := st.seen }

/-! ## Rendering (chain variant) -/

/-- The do-while loop of the chain variant's render, collecting the chain of
outer layouts: push the current name, then continue with
`collection[layoutname].layout` while truthy.  Reading `.layout` of a
missing record is a TypeError; `noFuel` models the divergence of the
unguarded loop on a cyclic collection. -/
def chainLayoutsFrom (C : RecordMap) : Nat → String → Except RenderErr (List String)
  | 0, _ => .error .noFuel
  | fuel + 1, name =>
    match alook C name with
    | none => .error .jsTypeErrored
    | some r =>
      match r.layout with
      | .str s =>
          if s = "" then .ok [name]
          else (chainLayoutsFrom C fuel s).map (fun t => name :: t)
      | _ => .ok [name]

/-- Since `Object.assign(locals, undefined)` is a no-op, so a missing layout
contributes nothing to the overlay. -/
def layoutObj (C : RecordMap) (l : String) : Obj :=
  match alook C l with
  | some r => objOf r
  | none => []

/-- The chain variant's base locals (built once, before the chain runs):
metadata, then the ancestor layouts assigned from the last (oldest) index
down to index 0, then the file's own object. -/
def chainBaseLocals (C : RecordMap) (metadata : Obj) (file : FileRecord)
    (layouts : List String) : Obj :=
  assignObj (layouts.foldr (fun l acc => assignObj acc (layoutObj C l)) metadata)
    (objOf file)

/-- One chain step's locals: the base locals with `{ contents }` assigned. -/
def chainStepLocals (C : RecordMap) (metadata : Obj) (file : FileRecord)
    (layouts : List String) (contents : String) : Obj :=
  ("contents", .vstr contents) :: chainBaseLocals C metadata file layouts

/-- The sequential promise chain of the chain variant's render: one step per
layout of the chain, threading the file's contents; a missing layout record
throws `cannot find layout`, a `false` transformer is a TypeError at
`.render`. -/
def chainSteps (tfs : TransformerMap) (settings : Settings) (C : RecordMap)
    (base : Obj) : List String → String → Except RenderErr String
  | [], contents => .ok contents
  | l :: rest, contents =>
    match alook C l with
    | none => .error (.cannotFind l)
    | some layoutfile =>
      match tfs (lastExt l) with
      | none => .error .jsTypeErrored
      | some transform =>
        chainSteps tfs settings C base rest
          (transform layoutfile.contents settings.engineOptions
            (("contents", .vstr contents) :: base))

/-- render (chain variant): collect the layout chain, build the locals once,
then render through every layout, updating the file's contents. -/
def renderChain (tfs : TransformerMap) (metadata : Obj) (settings : Settings)
    (files collection : RecordMap) (filename : String) :
    Except RenderErr RecordMap :=
  match alook files filename with
  | none => .error .jsTypeErrored
  | some file =>
    match getLayout file settings with
    | .str s =>
      match chainLayoutsFrom collection (collection.length + 1) s with
      | .error e => .error e
      | .ok layouts =>
        let base := chainBaseLocals collection metadata file layouts
        match chainSteps tfs settings collection base layouts file.contents with
        | .error e => .error e
        | .ok out =>
          .ok (updateAt files filename (fun r => { r with contents := out }))
    | _ => .error .jsTypeErrored

/-! ## Plugin orchestrators -/

/-- getCollection when the layout directory lies under the source: select
the files under the prefix and re-key them by base name (collisions are
last-write-wins, as in the source loop).  When the prefix is empty the
source instead runs a nested metalsmith pass over the layout directory;
that external result is supplied as the `extColl` parameter of the plugin
models. -/
def getCollection (glob : String → String → Bool) (files : RecordMap)
    (layoutsRel : String) : RecordMap :=
  (multimatch glob (keysOf files) [joinGlob layoutsRel "**/*"]).foldl
    (fun acc name =>
      match alook files name with
      | some r =>
        if (alook acc (baseName name)).isSome then
          acc.map (fun pr => if pr.1 = baseName name then (pr.1, r) else pr)
        else acc ++ [(baseName name, r)]
      | none => acc)
    []

/-- One pass-level terminal error. -/
inductive PassErr where
  | invalidPattern
  | noFiles
  | tree (e : TreeErr)
  | renderFail (e : RenderErr)
  | treeFuel
deriving DecidableEq, Repr

/-- One invocation of the completion callback. -/
inductive DoneArg where
  | success
  | failure (e : PassErr)
deriving DecidableEq, Repr

/-- The observable trace of one plugin pass: every `done` invocation in
order, the valid content files, the executed layout render events, the
outcome of every attempted content render, and whether a synchronous
TypeError escaped the plugin function. -/
structure PassTrace where
  doneCalls : List DoneArg
  validFiles : List String
  layoutEvents : List String
  contentResults : List (String × Option RenderErr)
  crashedSync : Bool
deriving DecidableEq, Repr

/-- The nested variant's content phase: each `new Promise` executor runs
synchronously during the `.map`, and because the `Promise.all` is not
returned from its `.then`, a rejection is swallowed and later files still
run. -/
def runContentRenders (tfs : TransformerMap) (metadata : Obj)
    (settings : Settings) (coll : RecordMap) :
    List String → RecordMap → List (String × Option RenderErr) →
      RecordMap × List (String × Option RenderErr)
  | [], files, acc => (files, acc)
  | n :: t, files, acc =>
    match render tfs metadata settings files coll n with
    | .ok files₁ => runContentRenders tfs metadata settings coll t files₁ (acc ++ [(n, none)])
    | .error e => runContentRenders tfs metadata settings coll t files (acc ++ [(n, some e)])

/-- module.exports (nested variant).  Faithful to the source's control flow:
an invalid pattern invokes `done` and then crashes on `pattern.push`; the
layouts negation `!prefix/**` is pushed unconditionally; the no-files error
invokes `done` but execution continues (no `else`); the content-phase
`Promise.all` is not returned, so `done()` succeeds regardless of content
render failures. -/
def pluginNested (glob : String → String → Bool) (utf8 : String → Bool)
    (tfs : TransformerMap) (extColl : RecordMap) (layoutsRel : String)
    (metadata : Obj) (options : Settings) (files : RecordMap) : PassTrace :=
  match options.pattern with
  | .pother =>
    { doneCalls := [.failure .invalidPattern], validFiles := [],
      layoutEvents := [], contentResults := [], crashedSync := true }
  | po =>
    let pats := match po with
      | .pstr s => [s]
      | .parr l => l
      | .pother => []
    let pats₁ := pats ++ ["!" ++ joinGlob layoutsRel "**"]
    let matched := multimatch glob (keysOf files) pats₁
    let valid := matched.filter (validate utf8 tfs files options)
    let preDone : List DoneArg := if valid.isEmpty then [.failure .noFiles] else []
    let coll := if layoutsRel = "" then extColl else getCollection glob files layoutsRel
    match renderNestedLayouts tfs metadata options coll with
    | .terr e =>
      { doneCalls := preDone ++ [.failure (.tree e)], validFiles := valid,
        layoutEvents := [], contentResults := [], crashedSync := false }
    | .rerr e =>
      { doneCalls := preDone ++ [.failure (.renderFail e)], validFiles := valid,
        layoutEvents := [], contentResults := [], crashedSync := false }
    | .fuelOut =>
      { doneCalls := preDone ++ [.failure .treeFuel], validFiles := valid,
        layoutEvents := [], contentResults := [], crashedSync := false }
    | .ok r =>
      let pr := runContentRenders tfs metadata options r.coll valid files []
      { doneCalls := preDone ++ [.success], validFiles := valid,
        layoutEvents := r.events, contentResults := pr.2, crashedSync := false }

/-- The chain variant's content phase: every file's render chain runs (the
executors and `.then` callbacks are synchronous and touch disjoint records,
so sequential order is observationally equivalent); `Promise.all` hands the
first rejection to `done`. -/
def runChainRenders (tfs : TransformerMap) (metadata : Obj)
    (settings : Settings) (coll : RecordMap) :
    List String → RecordMap → List (String × Option RenderErr) →
      RecordMap × List (String × Option RenderErr)
  | [], files, acc => (files, acc)
  | n :: t, files, acc =>
    match renderChain tfs metadata settings files coll n with
    | .ok files₁ => runChainRenders tfs metadata settings coll t files₁ (acc ++ [(n, none)])
    | .error e => runChainRenders tfs metadata settings coll t files (acc ++ [(n, some e)])

/-- The first content-render failure, which `Promise.all` rejects with. -/
def firstErr : List (String × Option RenderErr) → Option RenderErr
  | [] => none
  | (_, some e) :: _ => some e
  | (_, none) :: t => firstErr t

/-- module.exports (chain variant).  Differences from the nested variant:
the layouts negation is pushed only when the prefix is non-empty (with an
invalid pattern and an empty prefix, `match(keys, undefined)` yields `[]`
and a second `done` fires with the no-files error); the no-files branch has
a proper `else`; the render `Promise.all` is returned, so failures reach
`done`. -/
def pluginChain (glob : String → String → Bool) (utf8 : String → Bool)
    (tfs : TransformerMap) (extColl : RecordMap) (layoutsRel : String)
    (metadata : Obj) (options : Settings) (files : RecordMap) : PassTrace :=
  match options.pattern with
  | .pother =>
    if layoutsRel = "" then
      { doneCalls := [.failure .invalidPattern, .failure .noFiles], validFiles := [],
        layoutEvents := [], contentResults := [], crashedSync := false }
    else
      { doneCalls := [.failure .invalidPattern], validFiles := [],
        layoutEvents := [], contentResults := [], crashedSync := true }
  | po =>
    let pats := match po with
      | .pstr s => [s]
      | .parr l => l
      | .pother => []
    let pats₁ := if layoutsRel = "" then pats else pats ++ ["!" ++ joinGlob layoutsRel "**"]
    let matched := multimatch glob (keysOf files) pats₁
    let valid := matched.filter (validate utf8 tfs files options)
    if valid.isEmpty then
      { doneCalls := [.failure .noFiles], validFiles := valid,
        layoutEvents := [], contentResults := [], crashedSync := false }
    else
      let coll := if layoutsRel = "" then extColl else getCollection glob files layoutsRel
      let pr := runChainRenders tfs metadata options coll valid files []
      { doneCalls := [match firstErr pr.2 with
          | none => .success
          | some e => .failure (.renderFail e)],
        validFiles := valid, layoutEvents := [], contentResults := pr.2,
        crashedSync := false }

/-! ## Specification-level definitions and invariants -/

/-- A finished list where every element's parent sits strictly later in the
list (i.e. was finished earlier). -/
def okOrder (C : RecordMap) : List String → Prop
  | [] => True
  | x :: r => (∀ p, parentOf C x = some p → p ∈ r) ∧ okOrder C r

/-- The being-visited stack: each element is the parent of the next one
(the head is the most recently pushed). -/
def seenChain (C : RecordMap) : List String → Prop
  | [] => True
  | [_] => True
  | x :: y :: r => parentOf C y = some x ∧ seenChain C (y :: r)

/-- The number of collection keys neither being visited nor finished: the
strictly decreasing measure of the recursion. -/
def remCount (C : RecordMap) (st : TreeSt) : Nat :=
  ((keysOf C).filter (fun k => k ∉ st.seen ∧ k ∉ st.finished)).length

/-- The children table is correct with respect to the collection and a
finished list: every recorded child's parent pointer is the table key, every
recorded child is finished, and each list has no duplicates. -/
def chTblOk (C : RecordMap) (tbl : List (String × List String))
    (fin : List String) : Prop :=
  ∀ p l, alook tbl p = some l →
    (∀ c ∈ l, parentOf C c = some p ∧ c ∈ fin) ∧ l.Nodup

/-- The invariant carried by the tree walk at call boundaries. -/
structure INV (C : RecordMap) (st : TreeSt) : Prop where
  finKeys : ∀ x ∈ st.finished, (alook C x).isSome
  finNodup : st.finished.Nodup
  finOrd : okOrder C st.finished
  finResolve : ∀ x ∈ st.finished, ∀ p, parentOf C x = some p → (alook C p).isSome
  finChild : ∀ x ∈ st.finished, ∀ p, parentOf C x = some p →
    ∃ l, alook st.ctbl p = some l ∧ x ∈ l
  finRoot : ∀ x ∈ st.finished, parentOf C x = none → x ∈ st.roots
  ctblOk : chTblOk C st.ctbl st.finished
  ctblKeys : ∀ pr ∈ st.ctbl, (alook C pr.1).isSome
  chain : seenChain C st.seen
  rootsOk : ∀ r ∈ st.roots, parentOf C r = none ∧ r ∈ st.finished
  rootsNodup : st.roots.Nodup

/-- The creator of the current call, if any, is waiting on this name: the
head of the being-visited stack has this name as its parent. -/
def seenLink (C : RecordMap) (name : String) (s : List String) : Prop :=
  ∀ h t, s = h :: t → parentOf C h = some name

/-- Postcondition of `createLayoutTree` on one name. -/
def goPost (C : RecordMap) (st : TreeSt) (name : String) (fuel : Nat) :
    TreeOut → Prop
  | .ok st₁ =>
      INV C st₁ ∧ st₁.seen = st.seen ∧
      (∀ x ∈ st.finished, x ∈ st₁.finished) ∧
      (∀ x ∈ st₁.finished, x ∉ st.finished → x ∉ st.seen) ∧
      ((alook C name).isSome → name ∈ st₁.finished)
  | .err (.circular m) => ∃ n, iterParent C (n + 1) m = some m
  | .err (.typeErrored p) =>
      alook C p = none ∧ ∃ x r, alook C x = some r ∧ hasParent r = some p
  | .fuelOut => fuel ≤ remCount C st

/-- Postcondition of the driver fold over a key list. -/
def foldPost (C : RecordMap) (st : TreeSt) (ks : List String) : TreeOut → Prop
  | .ok st₁ =>
      INV C st₁ ∧ st₁.seen = [] ∧
      (∀ x ∈ st.finished, x ∈ st₁.finished) ∧
      (∀ k ∈ ks, (alook C k).isSome → k ∈ st₁.finished)
  | .err (.circular m) => ∃ n, iterParent C (n + 1) m = some m
  | .err (.typeErrored p) =>
      alook C p = none ∧ ∃ x r, alook C x = some r ∧ hasParent r = some p
  | .fuelOut => False

/-- Postcondition of buildTree: on success all keys are finished and the
invariant holds; a circular error names a layout on a genuine cycle; a
TypeError names a genuinely missing parent; fuel never runs out. -/
def buildPost (C : RecordMap) : TreeOut → Prop
  | .ok st =>
      INV C st ∧ st.seen = [] ∧ ∀ k ∈ keysOf C, k ∈ st.finished
  | .err (.circular m) => ∃ n, iterParent C (n + 1) m = some m
  | .err (.typeErrored p) =>
      alook C p = none ∧ ∃ x r, alook C x = some r ∧ hasParent r = some p
  | .fuelOut => False

/-- The children table matches the parent relation (extracted from INV). -/
def tblParents (C : RecordMap) (tbl : List (String × List String)) : Prop :=
  ∀ q cl, alook tbl q = some cl → ∀ c ∈ cl, parentOf C c = some q

/-- No starting-level member reaches another (or itself) through a positive
number of parent steps. -/
def noReach (C : RecordMap) (level : List String) : Prop :=
  ∀ q₁ ∈ level, ∀ q₂ ∈ level, ∀ k, iterParent C (k + 1) q₁ ≠ some q₂

/-- Modelled from the spec's words (§4.4 Context merge): start from the
pass-wide shared metadata, overlay the ancestor chain oldest-first, overlay
the node's own record last, and attach the current text under contents. -/
def specMergedContext (C : RecordMap) (metadata : Obj) (file : FileRecord)
    (chain : List String) (contents : String) : Obj :=
  ("contents", .vstr contents) ::
    assignObj
      (chain.reverse.foldl (fun acc l => assignObj acc (layoutObj C l)) metadata)
      (objOf file)

/-! ## Concrete inputs used by the claim theorems -/

/-- A record with placeholder contents. -/
def plainRec (l : LayoutRef) : FileRecord := ⟨"T", l, []⟩

/-- Pass everything through UTF-8 detection. -/
def utf8All : String → Bool := fun _ => true

/-- A concrete transformer registry: only the `njk` extension has an engine,
which brackets the template with the options and the contents local. -/
def njkTf : TransformerMap := fun ext =>
  if ext = "njk" then
    some (fun tpl opts locals =>
      tpl ++ "[" ++ opts ++ "|" ++
        (match lookupObj locals "contents" with
         | some (.vstr c) => c
         | _ => "?") ++ "]")
  else none

def stdSettings : Settings := ⟨.pstr "**", none, "E"⟩

/-- Two trees: r1 with grandchild b through a, r2 with child c.  In key
order, the whole r1 subtree is chained before r2's child. -/
def c1Coll : RecordMap :=
  [("r1.njk", plainRec .absent), ("a.njk", plainRec (.str "r1.njk")),
   ("b.njk", plainRec (.str "a.njk")), ("r2.njk", plainRec .absent),
   ("c.njk", plainRec (.str "r2.njk"))]

/-- The layout render order the nested variant produces on c1Coll. -/
def c1Events : List String :=
  match buildTree c1Coll with
  | .ok st => renderEvents st.ctbl (c1Coll.length + 1) st.roots
  | _ => []

def c1wColl : RecordMap :=
  [("base.njk", plainRec .absent), ("page.njk", plainRec (.str "base.njk"))]

def c1wSt : TreeSt :=
  ⟨[], ["page.njk", "base.njk"], [("base.njk", ["page.njk"])], ["base.njk"]⟩

/-- A dangling reference on the first key and a self-cycle on the second. -/
def c2xColl : RecordMap :=
  [("m0.njk", plainRec (.str "none.njk")), ("self.njk", plainRec (.str "self.njk"))]

/-- A two-cycle whose references all resolve. -/
def c2wColl : RecordMap :=
  [("a.njk", plainRec (.str "b.njk")), ("b.njk", plainRec (.str "a.njk"))]

/-- A self-cycle on the first key and a dangling reference on the second. -/
def c10xColl : RecordMap :=
  [("loop.njk", plainRec (.str "loop.njk")), ("d.njk", plainRec (.str "ghost.njk"))]

/-- A single layout whose parent is missing. -/
def c10wColl : RecordMap := [("m.njk", plainRec (.str "zzz.njk"))]

/-- The spec's context-merge example: shared metadata a=1. -/
def c3Metadata : Obj := [("a", .vnat 1)]

/-- The spec's context-merge example: ancestor layout data a=2, b=2. -/
def c3Coll : RecordMap :=
  [("l.njk", ⟨"L", .absent, [("a", .vnat 2), ("b", .vnat 2)]⟩)]

/-- The spec's context-merge example: content file data a=3. -/
def c3File : FileRecord := ⟨"hello", .str "l.njk", [("a", .vnat 3)]⟩

/-- A record with an explicitly present but empty layout property. -/
def c6File : FileRecord := ⟨"x", .str "", []⟩

def c6Settings : Settings := ⟨.pstr "**", some "d.njk", "E"⟩

/-- A valid content file whose layout is missing from the collection. -/
def c4Files : RecordMap :=
  [("index.md", ⟨"x", .str "missing.njk", []⟩),
   ("layouts/base.njk", plainRec .absent)]

/-- A content file with layouts outside the source tree (empty prefix). -/
def c5Files : RecordMap := [("index.md", ⟨"x", .str "page.njk", []⟩)]

/-- The externally scanned layout collection for c5Files. -/
def c5ExtColl : RecordMap := [("page.njk", ⟨"P", .absent, []⟩)]

/-- Only layout files, no valid content: the nested variant still renders
the child layout after reporting the no-files error. -/
def c7Files : RecordMap :=
  [("layouts/b.njk", ⟨"B", .absent, []⟩),
   ("layouts/a.njk", ⟨"A", .str "b.njk", []⟩)]

def c9Coll : RecordMap :=
  [("b.njk", ⟨"B", .absent, []⟩), ("a.njk", ⟨"A", .str "b.njk", []⟩)]

/-- The successful outcome of renderNestedLayouts on c9Coll. -/
def c9Res : RNLok :=
  ⟨["a.njk"],
   [("b.njk", ⟨"B", .absent, []⟩), ("a.njk", ⟨"B[E|A]", .absent, []⟩)],
   [], [], []⟩

/-! ## Basic lemmas about lookups and the parent relation -/

theorem alook_mem {β : Type} :
    ∀ {l : List (String × β)} {k : String} {v : β}, alook l k = some v → (k, v) ∈ l := by
  intro l
  induction l with
  | nil => intro k v h; simp [alook] at h
  | cons a t ih =>
    intro k v h
    obtain ⟨k₁, v₁⟩ := a
    by_cases hk : k₁ = k
    · subst hk
      simp [alook] at h
      simp [h]
    · simp [alook, hk] at h
      exact List.mem_cons_of_mem _ (ih h)

theorem alook_isSome_mem {β : Type} :
    ∀ {l : List (String × β)} {k : String}, (alook l k).isSome → k ∈ keysOf l := by
  intro l k h
  cases hv : alook l k with
  | none => rw [hv] at h; simp at h
  | some v => exact List.mem_map.mpr ⟨(k, v), alook_mem hv, rfl⟩

theorem mem_keys_isSome {β : Type} :
    ∀ {l : List (String × β)} {k : String}, k ∈ keysOf l → (alook l k).isSome := by
  intro l
  induction l with
  | nil => intro k h; simp [keysOf] at h
  | cons a t ih =>
    intro k h
    obtain ⟨k₁, v₁⟩ := a
    by_cases hk : k₁ = k
    · subst hk; simp [alook]
    · have h₁ : k ∈ k₁ :: keysOf t := h
      rcases List.mem_cons.mp h₁ with h₂ | h₂
      · exact absurd h₂.symm hk
      · simpa [alook, hk] using ih h₂

theorem iterParent_add (C : RecordMap) :
    ∀ (a b : Nat) (x : String),
      iterParent C (a + b) x = (iterParent C a x).bind (iterParent C b) := by
  intro a
  induction a with
  | zero => intro b x; simp [iterParent]
  | succ a ih =>
    intro b x
    have h1 : a + 1 + b = (a + b) + 1 := by omega
    rw [h1]
    simp only [iterParent]
    cases parentOf C x with
    | none => simp
    | some y => simp [ih b y]

/-- No element of an okOrder list lies on a parent-relation cycle. -/
theorem okOrder_no_cycle (C : RecordMap) :
    ∀ (L : List String), okOrder C L →
      ∀ x ∈ L, ∀ n, iterParent C (n + 1) x ≠ some x := by
  intro L
  induction L with
  | nil => intro _ x hx; simp at hx
  | cons y r ih =>
    intro hord x hx n hcyc
    obtain ⟨hhd, hrest⟩ := hord
    rcases List.mem_cons.mp hx with rfl | hx
    · simp only [iterParent] at hcyc
      cases hp : parentOf C x with
      | none => rw [hp] at hcyc; simp at hcyc
      | some p =>
        rw [hp] at hcyc
        have hcyc₁ : iterParent C n p = some x := hcyc
        have hpcyc : iterParent C (n + 1) p = some p := by
          rw [iterParent_add C n 1, hcyc₁]
          show iterParent C 1 x = some p
          simp [iterParent, hp]
        exact ih hrest p (hhd p hp) n hpcyc
    · exact ih hrest x hx n hcyc

/-- Walking the stack from any member up to the head follows the parent
relation. -/
theorem seenChain_split (C : RecordMap) :
    ∀ (l₁ : List String) {L : List String} (x : String) (l₂ : List String),
      seenChain C L → L = l₁ ++ x :: l₂ →
      ∃ t, L = (l₁ ++ [x]).headI :: t ∧
        iterParent C l₁.length x = some (l₁ ++ [x]).headI := by
  intro l₁
  induction l₁ with
  | nil =>
    intro L x l₂ _ hL
    exact ⟨l₂, by simpa using hL, by simp [iterParent]⟩
  | cons a l₁ ih =>
    intro L x l₂ hch hL
    subst hL
    cases hl₁ : l₁ with
    | nil =>
      subst hl₁
      obtain ⟨hpx, _⟩ := hch
      refine ⟨x :: l₂, by simp, ?_⟩
      simp [iterParent, hpx]
    | cons b l₁' =>
      subst hl₁
      obtain ⟨hpb, hch'⟩ := hch
      obtain ⟨t, hhead, hiter⟩ := ih x l₂ hch' rfl
      simp only [List.cons_append, List.headI] at hhead hiter ⊢
      refine ⟨_, rfl, ?_⟩
      show iterParent C ((b :: l₁').length + 1) x = some a
      rw [iterParent_add C ((b :: l₁').length) 1, hiter]
      show iterParent C 1 b = some a
      simp [iterParent, hpb]

/-! ## Invariants of the tree walk -/

theorem filter_len_le {α : Type} (p q : α → Bool) (h : ∀ x, q x = true → p x = true) :
    ∀ l : List α, (l.filter q).length ≤ (l.filter p).length := by
  intro l
  induction l with
  | nil => simp
  | cons b t ih =>
    cases hqb : q b with
    | false =>
      cases hpb : p b with
      | false => simpa [List.filter_cons, hqb, hpb] using ih
      | true => simp only [List.filter_cons, hqb, hpb]; simp; omega
    | true =>
      have hpb := h b hqb
      simp only [List.filter_cons, hqb, hpb]
      simpa using ih

theorem filter_len_lt {α : Type} (p q : α → Bool) (h : ∀ x, q x = true → p x = true) :
    ∀ (l : List α) (a : α), a ∈ l → p a = true → q a = false →
      (l.filter q).length < (l.filter p).length := by
  intro l
  induction l with
  | nil => intro a ha; simp at ha
  | cons b t ih =>
    intro a ha hpa hqa
    rcases List.mem_cons.mp ha with rfl | ha
    · simp only [List.filter_cons, hqa, hpa]
      have := filter_len_le p q h t
      simp
      omega
    · cases hqb : q b with
      | false =>
        cases hpb : p b with
        | false => simpa [List.filter_cons, hqb, hpb] using ih a ha hpa hqa
        | true =>
          simp only [List.filter_cons, hqb, hpb]
          have := ih a ha hpa hqa
          simp
          omega
      | true =>
        have hpb := h b hqb
        simp only [List.filter_cons, hqb, hpb]
        have := ih a ha hpa hqa
        simp
        omega

theorem remCount_le (C : RecordMap) (st : TreeSt) : remCount C st ≤ C.length := by
  have h := List.length_filter_le
    (fun k => decide (k ∉ st.seen ∧ k ∉ st.finished)) (keysOf C)
  simpa [remCount, keysOf] using h

theorem remCount_lt (C : RecordMap) (st : TreeSt) (name : String)
    (hk : name ∈ keysOf C) (hs : name ∉ st.seen) (hf : name ∉ st.finished) :
    remCount C { st with seen := name :: st.seen } < remCount C st := by
  apply filter_len_lt _ _ _ (keysOf C) name hk
  · simp [hs, hf]
  · simp
  · intro x hx
    simp only [decide_eq_true_eq] at hx ⊢
    exact ⟨fun h => hx.1 (List.mem_cons_of_mem _ h), hx.2⟩

theorem alook_addChild_self (tbl : List (String × List String)) (p c : String) :
    alook (addChild tbl p c) p = some ((alook tbl p).getD [] ++ [c]) := by
  induction tbl with
  | nil => simp [addChild, alook]
  | cons a t ih =>
    obtain ⟨p₁, l₁⟩ := a
    by_cases hp : p₁ = p
    · subst hp; simp [addChild, alook]
    · simp [addChild, alook, hp, ih]

theorem alook_addChild_ne (tbl : List (String × List String)) (p c q : String)
    (hq : q ≠ p) : alook (addChild tbl p c) q = alook tbl q := by
  have hq₁ : ¬ p = q := fun h => hq h.symm
  induction tbl with
  | nil =>
    simp [addChild, alook, hq₁]
  | cons a t ih =>
    obtain ⟨p₁, l₁⟩ := a
    by_cases hp : p₁ = p
    · subst hp
      simp [addChild, alook, hq₁]
    · by_cases hpq : p₁ = q
      · subst hpq; simp [addChild, alook, hp]
      · simp [addChild, alook, hp, hpq, ih]

theorem mem_addChild (tbl : List (String × List String)) (p c : String) :
    ∀ pr ∈ addChild tbl p c, pr.1 = p ∨ pr ∈ tbl := by
  induction tbl with
  | nil => intro pr hpr; simp [addChild] at hpr; simp [hpr]
  | cons a t ih =>
    obtain ⟨p₁, l₁⟩ := a
    intro pr hpr
    by_cases hp : p₁ = p
    · subst hp
      simp only [addChild, if_pos rfl] at hpr
      rcases List.mem_cons.mp hpr with rfl | hpr
      · exact Or.inl rfl
      · exact Or.inr (List.mem_cons_of_mem _ hpr)
    · simp only [addChild, if_neg hp] at hpr
      rcases List.mem_cons.mp hpr with rfl | hpr
      · exact Or.inr (List.mem_cons_self _ _)
      · rcases ih pr hpr with h | h
        · exact Or.inl h
        · exact Or.inr (List.mem_cons_of_mem _ h)

/-- Children lists only grow under addChild. -/
theorem alook_addChild_mono (tbl : List (String × List String))
    (p c q : String) (l : List String) (h : alook tbl q = some l) :
    ∃ l₁, alook (addChild tbl p c) q = some l₁ ∧ ∀ x ∈ l, x ∈ l₁ := by
  by_cases hqp : q = p
  · subst hqp
    refine ⟨l ++ [c], ?_, fun x hx => List.mem_append_left _ hx⟩
    rw [alook_addChild_self, h]
    rfl
  · exact ⟨l, by rw [alook_addChild_ne _ _ _ _ hqp]; exact h, fun x hx => hx⟩

theorem chTblOk_mono (C : RecordMap) {tbl : List (String × List String)}
    {fin fin' : List String} (h : chTblOk C tbl fin)
    (hsub : ∀ x ∈ fin, x ∈ fin') : chTblOk C tbl fin' := by
  intro p l hl
  obtain ⟨hmem, hnd⟩ := h p l hl
  exact ⟨fun c hc => ⟨(hmem c hc).1, hsub c (hmem c hc).2⟩, hnd⟩

theorem chTblOk_addChild (C : RecordMap) {tbl : List (String × List String)}
    {fin : List String} {p c : String} (h : chTblOk C tbl fin)
    (hpc : parentOf C c = some p) (hcf : c ∉ fin) :
    chTblOk C (addChild tbl p c) (c :: fin) := by
  intro q l hq
  by_cases hqp : q = p
  · subst hqp
    rw [alook_addChild_self] at hq
    injection hq with hq
    subst hq
    cases hold : alook tbl q with
    | none =>
      simp only [hold, Option.getD_none, List.nil_append]
      exact ⟨fun c' hc' => by
        rcases List.mem_singleton.mp hc' with rfl
        exact ⟨hpc, List.mem_cons_self _ _⟩, List.nodup_singleton _⟩
    | some l₀ =>
      obtain ⟨hmem, hnd⟩ := h q l₀ hold
      simp only [hold, Option.getD_some]
      constructor
      · intro c' hc'
        rcases List.mem_append.mp hc' with hc' | hc'
        · exact ⟨(hmem c' hc').1, List.mem_cons_of_mem _ (hmem c' hc').2⟩
        · rcases List.mem_singleton.mp hc' with rfl
          exact ⟨hpc, List.mem_cons_self _ _⟩
      · rw [List.nodup_append]
        refine ⟨hnd, List.nodup_singleton _, ?_⟩
        intro a ha hb
        rcases List.mem_singleton.mp hb with rfl
        exact hcf (hmem a ha).2
  · rw [alook_addChild_ne _ _ _ _ hqp] at hq
    obtain ⟨hmem, hnd⟩ := h q l hq
    exact ⟨fun c' hc' => ⟨(hmem c' hc').1, List.mem_cons_of_mem _ (hmem c' hc').2⟩, hnd⟩

theorem createLayoutTree_spec (C : RecordMap) :
    ∀ (fuel : Nat) (name : String) (st : TreeSt), INV C st →
      seenLink C name st.seen →
      goPost C st name fuel (createLayoutTree C fuel name st) := by
  intro fuel
  induction fuel with
  | zero =>
    intro name st _ _
    simp [createLayoutTree, goPost]
  | succ fuel ih =>
    intro name st hinv hlink
    cases halook : alook C name with
    | none =>
      have heq : createLayoutTree C (fuel + 1) name st = .ok st := by
        simp [createLayoutTree, halook]
      rw [heq]
      refine ⟨hinv, rfl, fun x hx => hx, fun x hx hnx => absurd hx hnx, fun hs => ?_⟩
      rw [halook] at hs
      simp at hs
    | some file =>
      by_cases hfin : name ∈ st.finished
      · have heq : createLayoutTree C (fuel + 1) name st = .ok st := by
          simp [createLayoutTree, halook, hfin]
        rw [heq]
        exact ⟨hinv, rfl, fun x hx => hx, fun x hx hnx => absurd hx hnx, fun _ => hfin⟩
      · by_cases hseen : name ∈ st.seen
        · have heq : createLayoutTree C (fuel + 1) name st = .err (.circular name) := by
            simp [createLayoutTree, halook, hfin, hseen]
          rw [heq]
          show ∃ n, iterParent C (n + 1) name = some name
          obtain ⟨l₁, l₂, hsplit⟩ := List.append_of_mem hseen
          obtain ⟨t, hhead, hiter⟩ := seenChain_split C l₁ name l₂ hinv.chain hsplit
          have hph : parentOf C ((l₁ ++ [name]).headI) = some name := hlink _ _ hhead
          refine ⟨l₁.length, ?_⟩
          rw [iterParent_add C l₁.length 1, hiter]
          show iterParent C 1 ((l₁ ++ [name]).headI) = some name
          simp [iterParent, hph]
        · have hchain₁ : seenChain C (name :: st.seen) := by
            cases hsn : st.seen with
            | nil => simp [seenChain]
            | cons h t => exact ⟨hlink h t hsn, hsn ▸ hinv.chain⟩
          have hinv₁ : INV C { st with seen := name :: st.seen } :=
            { finKeys := hinv.finKeys, finNodup := hinv.finNodup,
              finOrd := hinv.finOrd, finResolve := hinv.finResolve,
              finChild := hinv.finChild, finRoot := hinv.finRoot,
              ctblOk := hinv.ctblOk, ctblKeys := hinv.ctblKeys, chain := hchain₁,
              rootsOk := hinv.rootsOk, rootsNodup := hinv.rootsNodup }
          cases hpar : hasParent file with
          | none =>
            have hpn : parentOf C name = none := by
              simp [parentOf, halook, hpar]
            have heq : createLayoutTree C (fuel + 1) name st =
                .ok ⟨st.seen, name :: st.finished, st.ctbl, st.roots ++ [name]⟩ := by
              simp [createLayoutTree, halook, hfin, hseen, hpar, finishNode,
                List.erase_cons_head]
            rw [heq]
            refine ⟨?_, rfl, fun x hx => List.mem_cons_of_mem _ hx, ?_, ?_⟩
            · exact
                { finKeys := by
                    intro x hx
                    rcases List.mem_cons.mp hx with rfl | hx
                    · simp [halook]
                    · exact hinv.finKeys x hx
                  finNodup := List.nodup_cons.mpr ⟨hfin, hinv.finNodup⟩
                  finOrd := ⟨fun p hp => absurd hp (by simp [hpn]), hinv.finOrd⟩
                  finResolve := by
                    intro x hx p hp
                    rcases List.mem_cons.mp hx with rfl | hx
                    · rw [hpn] at hp; cases hp
                    · exact hinv.finResolve x hx p hp
                  finChild := by
                    intro x hx p hp
                    rcases List.mem_cons.mp hx with rfl | hx
                    · rw [hpn] at hp; cases hp
                    · exact hinv.finChild x hx p hp
                  finRoot := by
                    intro x hx hp
                    rcases List.mem_cons.mp hx with rfl | hx
                    · exact List.mem_append_right _ (List.mem_singleton.mpr rfl)
                    · exact List.mem_append_left _ (hinv.finRoot x hx hp)
                  ctblOk := chTblOk_mono C hinv.ctblOk
                    (fun x hx => List.mem_cons_of_mem _ hx)
                  ctblKeys := hinv.ctblKeys
                  chain := hinv.chain
                  rootsOk := by
                    intro r hr
                    rcases List.mem_append.mp hr with hr | hr
                    · exact ⟨(hinv.rootsOk r hr).1,
                        List.mem_cons_of_mem _ (hinv.rootsOk r hr).2⟩
                    · rcases List.mem_singleton.mp hr with rfl
                      exact ⟨hpn, List.mem_cons_self _ _⟩
                  rootsNodup := by
                    rw [List.nodup_append]
                    refine ⟨hinv.rootsNodup, List.nodup_singleton _, ?_⟩
                    intro a ha hb
                    rcases List.mem_singleton.mp hb with rfl
                    exact hfin (hinv.rootsOk a ha).2 }
            · intro x hx hnx
              rcases List.mem_cons.mp hx with rfl | hx
              · exact hseen
              · exact absurd hx hnx
            · exact fun _ => List.mem_cons_self _ _
          | some pname =>
            have hpn : parentOf C name = some pname := by
              simp [parentOf, halook, hpar]
            have hlink₁ : seenLink C pname (name :: st.seen) := by
              intro h t ht
              injection ht with h₁ h₂
              subst h₁
              exact hpn
            have hpost := ih pname { st with seen := name :: st.seen } hinv₁ hlink₁
            cases hrec : createLayoutTree C fuel pname { st with seen := name :: st.seen } with
            | ok st₂ =>
              rw [hrec] at hpost
              obtain ⟨hinv₂, hseq₂, hmono₂, hnew₂, hfin₂⟩ := hpost
              cases hplook : alook C pname with
              | none =>
                have heq : createLayoutTree C (fuel + 1) name st
                    = .err (.typeErrored pname) := by
                  simp [createLayoutTree, halook, hfin, hseen, hpar, hrec, hplook]
                rw [heq]
                exact ⟨hplook, name, file, halook, hpar⟩
              | some prec =>
                have hpmem : pname ∈ st₂.finished := hfin₂ (by simp [hplook])
                have hnomem : name ∉ st₂.finished := by
                  intro hmem
                  exact hnew₂ name hmem hfin (List.mem_cons_self _ _)
                have heq : createLayoutTree C (fuel + 1) name st =
                    .ok ⟨st.seen, name :: st₂.finished,
                      addChild st₂.ctbl pname name, st₂.roots⟩ := by
                  simp only [createLayoutTree, halook, hfin, hseen, hpar, hrec, hplook,
                    finishNode]
                  simp [hseq₂, List.erase_cons_head]
                rw [heq]
                refine ⟨?_, rfl, ?_, ?_, fun _ => List.mem_cons_self _ _⟩
                · exact
                    { finKeys := by
                        intro x hx
                        rcases List.mem_cons.mp hx with rfl | hx
                        · simp [halook]
                        · exact hinv₂.finKeys x hx
                      finOrd := by
                        refine ⟨?_, hinv₂.finOrd⟩
                        intro p hp
                        rw [hpn] at hp
                        injection hp with hp
                        subst hp
                        exact hpmem
                      finNodup := List.nodup_cons.mpr ⟨hnomem, hinv₂.finNodup⟩
                      finResolve := by
                        intro x hx p hp
                        rcases List.mem_cons.mp hx with rfl | hx
                        · rw [hpn] at hp
                          injection hp with hp
                          subst hp
                          simp [hplook]
                        · exact hinv₂.finResolve x hx p hp
                      finChild := by
                        intro x hx p hp
                        rcases List.mem_cons.mp hx with rfl | hx
                        · rw [hpn] at hp
                          injection hp with hp
                          subst hp
                          exact ⟨_, alook_addChild_self st₂.ctbl _ _,
                            List.mem_append_right _ (List.mem_singleton.mpr rfl)⟩
                        · obtain ⟨l, hl, hxl⟩ := hinv₂.finChild x hx p hp
                          obtain ⟨l₁, hl₁, hsub⟩ :=
                            alook_addChild_mono st₂.ctbl pname name p l hl
                          exact ⟨l₁, hl₁, hsub x hxl⟩
                      finRoot := by
                        intro x hx hp
                        rcases List.mem_cons.mp hx with rfl | hx
                        · rw [hpn] at hp; cases hp
                        · exact hinv₂.finRoot x hx hp
                      ctblOk := chTblOk_addChild C hinv₂.ctblOk hpn hnomem
                      ctblKeys := by
                        intro pr hpr
                        rcases mem_addChild _ _ _ pr hpr with h | h
                        · rw [h]; simp [hplook]
                        · exact hinv₂.ctblKeys pr h
                      chain := hinv.chain
                      rootsOk := by
                        intro r hr
                        exact ⟨(hinv₂.rootsOk r hr).1,
                          List.mem_cons_of_mem _ (hinv₂.rootsOk r hr).2⟩
                      rootsNodup := hinv₂.rootsNodup }
                · exact fun x hx => List.mem_cons_of_mem _ (hmono₂ x hx)
                · intro x hx hnx
                  rcases List.mem_cons.mp hx with rfl | hx
                  · exact hseen
                  · exact fun hmem =>
                      hnew₂ x hx hnx (List.mem_cons_of_mem _ hmem)
            | err e =>
              rw [hrec] at hpost
              have heq : createLayoutTree C (fuel + 1) name st = .err e := by
                simp [createLayoutTree, halook, hfin, hseen, hpar, hrec]
              rw [heq]
              cases e with
              | circular m => exact hpost
              | typeErrored p => exact hpost
            | fuelOut =>
              rw [hrec] at hpost
              have heq : createLayoutTree C (fuel + 1) name st = .fuelOut := by
                simp [createLayoutTree, halook, hfin, hseen, hpar, hrec]
              rw [heq]
              show fuel + 1 ≤ remCount C st
              have hk : name ∈ keysOf C := alook_isSome_mem (by simp [halook])
              have hlt := remCount_lt C st name hk hseen hfin
              have hle : fuel ≤ remCount C { st with seen := name :: st.seen } := hpost
              omega

/-! ## The driver loop -/

theorem foldl_treeStep_err (C : RecordMap) (e : TreeErr) :
    ∀ ks : List String, ks.foldl (treeStep C) (.err e) = .err e := by
  intro ks
  induction ks with
  | nil => rfl
  | cons k t ih => simpa [treeStep] using ih

theorem foldl_treeStep_fuelOut (C : RecordMap) :
    ∀ ks : List String, ks.foldl (treeStep C) .fuelOut = .fuelOut := by
  intro ks
  induction ks with
  | nil => rfl
  | cons k t ih => simpa [treeStep] using ih

theorem foldl_treeStep_spec (C : RecordMap) :
    ∀ (ks : List String) (st : TreeSt), INV C st → st.seen = [] →
      foldPost C st ks (ks.foldl (treeStep C) (.ok st)) := by
  intro ks
  induction ks with
  | nil =>
    intro st hinv hseen
    exact ⟨hinv, hseen, fun x hx => hx, by simp⟩
  | cons k t ih =>
    intro st hinv hseen
    have hlink : seenLink C k st.seen := by
      intro h t' ht
      rw [hseen] at ht
      cases ht
    have hk := createLayoutTree_spec C (C.length + 1) k st hinv hlink
    rw [List.foldl_cons]
    have hstep : treeStep C (.ok st) k = createLayoutTree C (C.length + 1) k st := rfl
    rw [hstep]
    cases hres : createLayoutTree C (C.length + 1) k st with
    | ok st₁ =>
      rw [hres] at hk
      obtain ⟨hinv₁, hseq, hmono, _, hfin⟩ := hk
      have hseen₁ : st₁.seen = [] := hseq.trans hseen
      have hrest := ih st₁ hinv₁ hseen₁
      cases hfold : t.foldl (treeStep C) (.ok st₁) with
      | ok st₂ =>
        rw [hfold] at hrest
        obtain ⟨hinv₂, hseen₂, hmono₂, hall₂⟩ := hrest
        refine ⟨hinv₂, hseen₂, fun x hx => hmono₂ x (hmono x hx), ?_⟩
        intro k₁ hk₁ hsome
        rcases List.mem_cons.mp hk₁ with rfl | hk₁
        · exact hmono₂ k₁ (hfin hsome)
        · exact hall₂ k₁ hk₁ hsome
      | err e =>
        rw [hfold] at hrest
        cases e with
        | circular m => exact hrest
        | typeErrored p => exact hrest
      | fuelOut => rw [hfold] at hrest; exact hrest
    | err e =>
      rw [hres] at hk
      rw [foldl_treeStep_err]
      cases e with
      | circular m => exact hk
      | typeErrored p => exact hk
    | fuelOut =>
      rw [hres] at hk
      have h₁ := remCount_le C st
      exact absurd hk (Nat.not_le.mpr (Nat.lt_succ_of_le h₁))

theorem buildTree_spec (C : RecordMap) : buildPost C (buildTree C) := by
  have hinit : INV C ⟨[], [], [], []⟩ :=
    { finKeys := by intro x hx; simp at hx
      finNodup := List.nodup_nil
      finOrd := trivial
      finResolve := by intro x hx; simp at hx
      finChild := by intro x hx; simp at hx
      finRoot := by intro x hx; simp at hx
      ctblOk := by intro p l h; simp [alook] at h
      ctblKeys := by intro pr hpr; simp at hpr
      chain := trivial
      rootsOk := by intro r hr; simp at hr
      rootsNodup := List.nodup_nil }
  have h := foldl_treeStep_spec C (keysOf C) ⟨[], [], [], []⟩ hinit rfl
  unfold buildTree
  cases hf : (keysOf C).foldl (treeStep C) (.ok ⟨[], [], [], []⟩) with
  | ok st =>
    rw [hf] at h
    obtain ⟨hinv, hseen, _, hall⟩ := h
    exact ⟨hinv, hseen, fun k hk => hall k hk (mem_keys_isSome hk)⟩
  | err e =>
    rw [hf] at h
    cases e with
    | circular m => exact h
    | typeErrored p => exact h
  | fuelOut => rw [hf] at h; exact h

/-- A name on a cycle is a key of the collection. -/
theorem cycle_mem_keys (C : RecordMap) (x : String) (n : Nat)
    (h : iterParent C (n + 1) x = some x) : x ∈ keysOf C := by
  simp only [iterParent] at h
  cases ha : alook C x with
  | none =>
    rw [show parentOf C x = none by simp [parentOf, ha]] at h
    simp at h
  | some r => exact alook_isSome_mem (by simp [ha])

/-- On success the collection has no cycle. -/
theorem buildTree_ok_noCycle (C : RecordMap) (st : TreeSt)
    (h : buildTree C = .ok st) : ¬ HasCycle C := by
  have hspec := buildTree_spec C
  rw [h] at hspec
  obtain ⟨hinv, _, hall⟩ := hspec
  rintro ⟨x, n, hcyc⟩
  exact okOrder_no_cycle C st.finished hinv.finOrd x
    (hall x (cycle_mem_keys C x n hcyc)) n hcyc

/-! ## Order of the chained layout renders -/

theorem renderEvents_zero (tbl : List (String × List String)) (level : List String) :
    renderEvents tbl 0 level = [] := rfl

theorem renderEvents_nil (tbl : List (String × List String)) (fuel : Nat) :
    renderEvents tbl (fuel + 1) [] = [] := rfl

theorem renderEvents_cons (tbl : List (String × List String)) (fuel : Nat)
    (q : String) (rest : List String) :
    renderEvents tbl (fuel + 1) (q :: rest) =
      (match alook tbl q with
       | some cl => cl ++ renderEvents tbl fuel cl
       | none => []) ++ renderEvents tbl (fuel + 1) rest := by
  show ((q :: rest).foldr _ []).flatten = _
  rw [List.foldr_cons]
  cases hq : alook tbl q with
  | none => simp [renderEvents, renderLayouts, hq]
  | some cl => simp [renderEvents, renderLayouts, hq]

/-- Everything rendered sits in some children list of the table. -/
theorem renderEvents_mem (tbl : List (String × List String)) :
    ∀ (fuel : Nat) (level : List String) (x : String),
      x ∈ renderEvents tbl fuel level →
      ∃ q cl, alook tbl q = some cl ∧ x ∈ cl := by
  intro fuel
  induction fuel with
  | zero => intro level x hx; rw [renderEvents_zero] at hx; simp at hx
  | succ fuel ihf =>
    intro level
    induction level with
    | nil => intro x hx; rw [renderEvents_nil] at hx; simp at hx
    | cons q rest ihl =>
      intro x hx
      rw [renderEvents_cons] at hx
      rcases List.mem_append.mp hx with hx | hx
      · cases hq : alook tbl q with
        | none => rw [hq] at hx; simp at hx
        | some cl =>
          rw [hq] at hx
          rcases List.mem_append.mp hx with hx | hx
          · exact ⟨q, cl, hq, hx⟩
          · exact ihf cl x hx
      · exact ihl x hx

/-- Everything rendered reaches a member of the starting level through at
least one parent step. -/
theorem renderEvents_reach (C : RecordMap) (tbl : List (String × List String))
    (H1 : tblParents C tbl) :
    ∀ (fuel : Nat) (level : List String) (x : String),
      x ∈ renderEvents tbl fuel level →
      ∃ q ∈ level, ∃ n, iterParent C (n + 1) x = some q := by
  intro fuel
  induction fuel with
  | zero => intro level x hx; rw [renderEvents_zero] at hx; simp at hx
  | succ fuel ihf =>
    intro level
    induction level with
    | nil => intro x hx; rw [renderEvents_nil] at hx; simp at hx
    | cons q rest ihl =>
      intro x hx
      rw [renderEvents_cons] at hx
      rcases List.mem_append.mp hx with hx | hx
      · cases hq : alook tbl q with
        | none => rw [hq] at hx; simp at hx
        | some cl =>
          rw [hq] at hx
          rcases List.mem_append.mp hx with hx | hx
          · exact ⟨q, List.mem_cons_self _ _, 0, by
              show iterParent C 1 x = some q
              simp [iterParent, H1 q cl hq x hx]⟩
          · obtain ⟨q₁, hq₁, n, hiter⟩ := ihf cl x hx
            refine ⟨q, List.mem_cons_self _ _, n + 1, ?_⟩
            rw [iterParent_add C (n + 1) 1, hiter]
            show iterParent C 1 q₁ = some q
            simp [iterParent, H1 q cl hq q₁ hq₁]
      · obtain ⟨q₁, hq₁, n, hiter⟩ := ihl x hx
        exact ⟨q₁, List.mem_cons_of_mem _ hq₁, n, hiter⟩

/-- Splitting an append at a distinguished element. -/
theorem splitMid {α : Type} :
    ∀ {A B E₁ E₂ : List α} {c : α}, A ++ B = E₁ ++ c :: E₂ →
      (∃ T, A = E₁ ++ c :: T ∧ E₂ = T ++ B) ∨
      (∃ S, E₁ = A ++ S ∧ B = S ++ c :: E₂) := by
  intro A
  induction A with
  | nil =>
    intro B E₁ E₂ c h
    exact Or.inr ⟨E₁, by simp, by simpa using h⟩
  | cons a A ih =>
    intro B E₁ E₂ c h
    cases E₁ with
    | nil =>
      simp only [List.cons_append, List.nil_append] at h
      injection h with h₁ h₂
      subst h₁
      exact Or.inl ⟨A, by simp, h₂.symm⟩
    | cons e E₁ =>
      simp only [List.cons_append] at h
      injection h with h₁ h₂
      subst h₁
      rcases ih h₂ with ⟨T, hA, hE⟩ | ⟨S, hE₁, hB⟩
      · exact Or.inl ⟨T, by simp [hA], hE⟩
      · exact Or.inr ⟨S, by simp [hE₁], hB⟩

/-- Whenever a rendered name is reached, its parent has either already been
rendered or is a member of the starting level. -/
theorem renderEvents_parent_before (C : RecordMap)
    (tbl : List (String × List String)) (H1 : tblParents C tbl) :
    ∀ (fuel : Nat) (level : List String) (c p : String) (E₁ E₂ : List String),
      parentOf C c = some p →
      renderEvents tbl fuel level = E₁ ++ c :: E₂ →
      p ∈ E₁ ∨ p ∈ level := by
  intro fuel
  induction fuel with
  | zero =>
    intro level c p E₁ E₂ _ heq
    rw [renderEvents_zero] at heq
    exact absurd heq.symm (by simp)
  | succ fuel ihf =>
    intro level
    induction level with
    | nil =>
      intro c p E₁ E₂ _ heq
      rw [renderEvents_nil] at heq
      exact absurd heq.symm (by simp)
    | cons q rest ihl =>
      intro c p E₁ E₂ hpc heq
      rw [renderEvents_cons] at heq
      rcases splitMid heq with ⟨T, hA, _⟩ | ⟨S, hE₁, hB⟩
      · cases hq : alook tbl q with
        | none => rw [hq] at hA; exact absurd hA.symm (by simp)
        | some cl =>
          rw [hq] at hA
          rcases splitMid hA with ⟨T₁, hcl, _⟩ | ⟨S₁, hE₁', hB'⟩
          · have hcmem : c ∈ cl := by rw [hcl]; simp
            have hq₁ := H1 q cl hq c hcmem
            rw [hpc] at hq₁
            injection hq₁ with hq₁
            exact Or.inr (hq₁ ▸ List.mem_cons_self _ _)
          · rcases ihf cl c p S₁ T hpc hB' with hp | hp
            · exact Or.inl (hE₁' ▸ List.mem_append_right _ hp)
            · exact Or.inl (hE₁' ▸ List.mem_append_left _ hp)
      · rcases ihl c p S E₂ hpc hB with hp | hp
        · exact Or.inl (hE₁ ▸ List.mem_append_right _ hp)
        · exact Or.inr (List.mem_cons_of_mem _ hp)

theorem childLevel_noReach (C : RecordMap) (tbl : List (String × List String))
    (H1 : tblParents C tbl) (HNC : ∀ x n, iterParent C (n + 1) x ≠ some x)
    (q : String) (cl : List String) (hq : alook tbl q = some cl) :
    noReach C cl := by
  intro q₁ h₁ q₂ h₂ k hpath
  have hp₁ := H1 q cl hq q₁ h₁
  have hp₂ := H1 q cl hq q₂ h₂
  have hkq : iterParent C k q = some q₂ := by
    have h := hpath
    simp only [iterParent] at h
    rw [hp₁] at h
    exact h
  have hcyc : iterParent C (k + 1) q = some q := by
    rw [iterParent_add C k 1, hkq]
    show iterParent C 1 q₂ = some q
    simp [iterParent, hp₂]
  exact HNC q k hcyc

theorem roots_noReach (C : RecordMap) (roots : List String)
    (hroots : ∀ r ∈ roots, parentOf C r = none) : noReach C roots := by
  intro q₁ h₁ q₂ h₂ k hpath
  simp only [iterParent] at hpath
  rw [hroots q₁ h₁] at hpath
  simp at hpath

theorem chunk_reach (C : RecordMap) (tbl : List (String × List String))
    (H1 : tblParents C tbl) (fuel : Nat) (q a : String)
    (ha : a ∈ (match alook tbl q with
       | some cl => cl ++ renderEvents tbl fuel cl
       | none => ([] : List String))) :
    ∃ m, iterParent C (m + 1) a = some q := by
  cases hq : alook tbl q with
  | none => rw [hq] at ha; simp at ha
  | some cl =>
    rw [hq] at ha
    rcases List.mem_append.mp ha with ha | ha
    · exact ⟨0, by
        show iterParent C 1 a = some q
        simp [iterParent, H1 q cl hq a ha]⟩
    · obtain ⟨q₁, hq₁, n, hiter⟩ := renderEvents_reach C tbl H1 fuel cl a ha
      refine ⟨n + 1, ?_⟩
      rw [iterParent_add C (n + 1) 1, hiter]
      show iterParent C 1 q₁ = some q
      simp [iterParent, H1 q cl hq q₁ hq₁]

/-- Two parent-chain targets from one name: either the step counts agree and
the targets are equal, or one target reaches the other. -/
theorem reach_collide (C : RecordMap) (a q q₂ : String) (m n : Nat)
    (h₁ : iterParent C (m + 1) a = some q)
    (h₂ : iterParent C (n + 1) a = some q₂) :
    q = q₂ ∨ (∃ k, iterParent C (k + 1) q = some q₂) ∨
      (∃ k, iterParent C (k + 1) q₂ = some q) := by
  rcases Nat.lt_trichotomy m n with hlt | heq | hgt
  · right; left
    refine ⟨n - m - 1, ?_⟩
    have harith : (m + 1) + (n - m) = n + 1 := by omega
    have h := h₂
    rw [← harith, iterParent_add C (m + 1) (n - m), h₁] at h
    have harith₂ : n - m - 1 + 1 = n - m := by omega
    rw [harith₂]
    exact h
  · subst heq
    rw [h₁] at h₂
    exact Or.inl (Option.some.inj h₂)
  · right; right
    refine ⟨m - n - 1, ?_⟩
    have harith : (n + 1) + (m - n) = m + 1 := by omega
    have h := h₁
    rw [← harith, iterParent_add C (n + 1) (m - n), h₂] at h
    have harith₂ : m - n - 1 + 1 = m - n := by omega
    rw [harith₂]
    exact h

/-- The render event list has no duplicates: each layout is rendered at most
once. -/
theorem renderEvents_nodup (C : RecordMap) (tbl : List (String × List String))
    (H1 : tblParents C tbl)
    (H2 : ∀ q cl, alook tbl q = some cl → cl.Nodup)
    (HNC : ∀ x n, iterParent C (n + 1) x ≠ some x) :
    ∀ (fuel : Nat) (level : List String), level.Nodup → noReach C level →
      (renderEvents tbl fuel level).Nodup := by
  intro fuel
  induction fuel with
  | zero => intro level _ _; rw [renderEvents_zero]; exact List.nodup_nil
  | succ fuel ihf =>
    intro level
    induction level with
    | nil => intro _ _; rw [renderEvents_nil]; exact List.nodup_nil
    | cons q rest ihl =>
      intro hnd hnr
      obtain ⟨hqrest, hndrest⟩ := List.nodup_cons.mp hnd
      have hnrrest : noReach C rest := fun q₁ h₁ q₂ h₂ k =>
        hnr q₁ (List.mem_cons_of_mem _ h₁) q₂ (List.mem_cons_of_mem _ h₂) k
      rw [renderEvents_cons, List.nodup_append]
      refine ⟨?_, ihl hndrest hnrrest, ?_⟩
      · cases hq : alook tbl q with
        | none => exact List.nodup_nil
        | some cl =>
          show (cl ++ renderEvents tbl fuel cl).Nodup
          rw [List.nodup_append]
          refine ⟨H2 q cl hq,
            ihf cl (H2 q cl hq) (childLevel_noReach C tbl H1 HNC q cl hq), ?_⟩
          intro a ha hb
          obtain ⟨q₁, hq₁, n, hiter⟩ := renderEvents_reach C tbl H1 fuel cl a hb
          have hpa : parentOf C a = some q := H1 q cl hq a ha
          have hq₁p : parentOf C q₁ = some q := H1 q cl hq q₁ hq₁
          have h₁ : iterParent C (n + 2) a = some q := by
            rw [show n + 2 = (n + 1) + 1 from rfl, iterParent_add C (n + 1) 1, hiter]
            show iterParent C 1 q₁ = some q
            simp [iterParent, hq₁p]
          have h₂ : iterParent C (n + 2) a = iterParent C (n + 1) q := by
            rw [show n + 2 = 1 + (n + 1) by omega, iterParent_add C 1 (n + 1)]
            rw [show iterParent C 1 a = some q by simp [iterParent, hpa]]
            rfl
          rw [h₂] at h₁
          exact HNC q n h₁
      · intro a ha hb
        obtain ⟨m, hm⟩ := chunk_reach C tbl H1 fuel q a ha
        obtain ⟨q₂, hq₂, n, hn⟩ := renderEvents_reach C tbl H1 (fuel + 1) rest a hb
        rcases reach_collide C a q q₂ m n hm hn with hqq | ⟨k, hk⟩ | ⟨k, hk⟩
        · exact hqrest (hqq ▸ hq₂)
        · exact hnr q (List.mem_cons_self _ _) q₂ (List.mem_cons_of_mem _ hq₂) k hk
        · exact hnr q₂ (List.mem_cons_of_mem _ hq₂) q (List.mem_cons_self _ _) k hk

/-- The children of any starting-level member are rendered. -/
theorem renderEvents_level_child (tbl : List (String × List String)) :
    ∀ (fuel : Nat) (level : List String) (q : String), q ∈ level →
      ∀ cl, alook tbl q = some cl → ∀ c ∈ cl,
        c ∈ renderEvents tbl (fuel + 1) level := by
  intro fuel level
  induction level with
  | nil => intro q hq; simp at hq
  | cons q₀ rest ih =>
    intro q hq cl hcl c hc
    rw [renderEvents_cons]
    rcases List.mem_cons.mp hq with rfl | hq
    · apply List.mem_append_left
      simp only [hcl]
      exact List.mem_append_left _ hc
    · exact List.mem_append_right _ (ih q hq cl hcl c hc)

/-- The children of a rendered layout are rendered when one more unit of
fuel is available. -/
theorem renderEvents_child_closed (tbl : List (String × List String)) :
    ∀ (fuel : Nat) (level : List String) (p : String) (cl : List String)
      (x : String), alook tbl p = some cl → x ∈ cl →
      p ∈ renderEvents tbl (fuel + 1) level →
      x ∈ renderEvents tbl (fuel + 2) level := by
  intro fuel
  induction fuel with
  | zero =>
    intro level
    induction level with
    | nil => intro p cl x _ _ hp; rw [renderEvents_nil] at hp; simp at hp
    | cons q rest ih =>
      intro p cl x hcl hx hp
      rw [renderEvents_cons] at hp
      rw [renderEvents_cons]
      rcases List.mem_append.mp hp with hp | hp
      · apply List.mem_append_left
        cases hq : alook tbl q with
        | none => rw [hq] at hp; simp at hp
        | some clq =>
          rw [hq] at hp
          simp only [hq]
          rcases List.mem_append.mp hp with hp | hp
          · exact List.mem_append_right _
              (renderEvents_level_child tbl 0 clq p hp cl hcl x hx)
          · rw [renderEvents_zero] at hp; simp at hp
      · exact List.mem_append_right _ (ih p cl x hcl hx hp)
  | succ fuel ihf =>
    intro level
    induction level with
    | nil => intro p cl x _ _ hp; rw [renderEvents_nil] at hp; simp at hp
    | cons q rest ih =>
      intro p cl x hcl hx hp
      rw [renderEvents_cons] at hp
      rw [renderEvents_cons]
      rcases List.mem_append.mp hp with hp | hp
      · apply List.mem_append_left
        cases hq : alook tbl q with
        | none => rw [hq] at hp; simp at hp
        | some clq =>
          rw [hq] at hp
          simp only [hq]
          rcases List.mem_append.mp hp with hp | hp
          · exact List.mem_append_right _
              (renderEvents_level_child tbl (fuel + 1) clq p hp cl hcl x hx)
          · exact List.mem_append_right _ (ihf clq p cl x hcl hx hp)
      · exact List.mem_append_right _ (ih p cl x hcl hx hp)

/-- A parent pointer implies the record exists. -/
theorem parentOf_isSome (C : RecordMap) (x p : String)
    (h : parentOf C x = some p) : (alook C x).isSome := by
  unfold parentOf at h
  cases ha : alook C x with
  | none => rw [ha] at h; cases h
  | some r => simp

/-- Every finished name reaches a root along the parent relation, in at
most as many steps as the finished list is long. -/
theorem chase_root (C : RecordMap) (st : TreeSt) (hinv : INV C st) :
    ∀ L : List String, okOrder C L → (∀ y ∈ L, y ∈ st.finished) →
      ∀ x ∈ L, ∃ k r, k ≤ L.length ∧ iterParent C k x = some r ∧
        parentOf C r = none ∧ r ∈ st.roots := by
  intro L
  induction L with
  | nil => intro _ _ x hx; simp at hx
  | cons y rest ih =>
    intro hord hsub x hx
    obtain ⟨hhd, hrest⟩ := hord
    rcases List.mem_cons.mp hx with rfl | hx
    · cases hp : parentOf C x with
      | none =>
        exact ⟨0, x, Nat.zero_le _, rfl, hp,
          hinv.finRoot x (hsub x (List.mem_cons_self _ _)) hp⟩
      | some p =>
        obtain ⟨k, r, hk, hit, hpr, hrm⟩ :=
          ih hrest (fun y hy => hsub y (List.mem_cons_of_mem _ hy)) p (hhd p hp)
        refine ⟨k + 1, r, Nat.succ_le_succ hk, ?_, hpr, hrm⟩
        simp only [iterParent, hp]
        exact hit
    · obtain ⟨k, r, hk, hit, hpr, hrm⟩ :=
        ih hrest (fun y hy => hsub y (List.mem_cons_of_mem _ hy)) x hx
      exact ⟨k, r, Nat.le_succ_of_le hk, hit, hpr, hrm⟩

/-- A duplicate-free list contained in another list is no longer than it. -/
theorem nodup_subset_length {α : Type} [DecidableEq α] (l l₁ : List α)
    (h : l.Nodup) (hsub : ∀ x ∈ l, x ∈ l₁) : l.length ≤ l₁.length := by
  have h₁ : l.toFinset.card = l.length := List.toFinset_card_of_nodup h
  have h₂ : l.toFinset ⊆ l₁.toFinset := by
    intro a ha
    rw [List.mem_toFinset] at ha ⊢
    exact hsub a ha
  have h₃ := Finset.card_le_card h₂
  have h₄ := l₁.toFinset_card_le
  omega

/-- A layout that reaches a root in k+1 parent steps is rendered whenever
the fuel covers the chain. -/
theorem rooted_in_events (C : RecordMap) (st : TreeSt) (hinv : INV C st)
    (HF : ∀ y, (alook C y).isSome → y ∈ st.finished) :
    ∀ (k : Nat) (x r : String), iterParent C (k + 1) x = some r →
      r ∈ st.roots → ∀ fuel, k + 1 ≤ fuel →
      x ∈ renderEvents st.ctbl fuel st.roots := by
  intro k
  induction k with
  | zero =>
    intro x r hit hr fuel hfuel
    have hp : parentOf C x = some r := by
      simp only [iterParent] at hit
      cases hpx : parentOf C x with
      | none => rw [hpx] at hit; cases hit
      | some p =>
        rw [hpx] at hit
        have hit₁ : iterParent C 0 p = some r := hit
        simp only [iterParent] at hit₁
        exact hit₁
    have hxfin : x ∈ st.finished := HF x (parentOf_isSome C x r hp)
    obtain ⟨l, hl, hxl⟩ := hinv.finChild x hxfin r hp
    obtain ⟨f, rfl⟩ : ∃ f, fuel = f + 1 := ⟨fuel - 1, by omega⟩
    exact renderEvents_level_child st.ctbl f st.roots r hr l hl x hxl
  | succ k ihk =>
    intro x r hit hr fuel hfuel
    have hstep : ∃ p, parentOf C x = some p ∧ iterParent C (k + 1) p = some r := by
      simp only [iterParent] at hit
      cases hpx : parentOf C x with
      | none => rw [hpx] at hit; cases hit
      | some p =>
        rw [hpx] at hit
        exact ⟨p, rfl, hit⟩
    obtain ⟨p, hp, hit₁⟩ := hstep
    have hxfin : x ∈ st.finished := HF x (parentOf_isSome C x p hp)
    obtain ⟨l, hl, hxl⟩ := hinv.finChild x hxfin p hp
    obtain ⟨f, rfl⟩ : ∃ f, fuel = f + 2 := ⟨fuel - 2, by omega⟩
    have hpE : p ∈ renderEvents st.ctbl (f + 1) st.roots :=
      ihk p r hit₁ hr (f + 1) (by omega)
    exact renderEvents_child_closed st.ctbl f st.roots p l x hl hxl hpE

/-! ## Renders only rewrite contents; cleanup strips layout and markers -/

theorem alook_updateAt {β : Type} (l : List (String × β)) (n x : String)
    (u : β → β) :
    alook (updateAt l n u) x =
      (alook l x).map (fun r => if x = n then u r else r) := by
  unfold updateAt
  induction l with
  | nil => simp [alook]
  | cons a t ih =>
    obtain ⟨k, v⟩ := a
    show alook ((if k = n then (k, u v) else (k, v)) :: _) x = _
    by_cases hkn : k = n
    · rw [if_pos hkn]
      show (if k = x then some (u v) else
        alook (t.map (fun pr => if pr.1 = n then (pr.1, u pr.2) else pr)) x) = _
      by_cases hkx : k = x
      · rw [if_pos hkx]
        have hxn : x = n := hkx.symm.trans hkn
        rw [show alook ((k, v) :: t) x = some v from by simp [alook, hkx]]
        rw [show ((some v).map (fun r => if x = n then u r else r))
          = some (if x = n then u v else v) from rfl]
        rw [if_pos hxn]
      · rw [if_neg hkx]
        rw [show alook ((k, v) :: t) x = alook t x from by simp [alook, hkx]]
        exact ih
    · rw [if_neg hkn]
      show (if k = x then some v else
        alook (t.map (fun pr => if pr.1 = n then (pr.1, u pr.2) else pr)) x) = _
      by_cases hkx : k = x
      · rw [if_pos hkx]
        have hxn : ¬ x = n := fun h => hkn (hkx.trans h)
        rw [show alook ((k, v) :: t) x = some v from by simp [alook, hkx]]
        rw [show ((some v).map (fun r => if x = n then u r else r))
          = some (if x = n then u v else v) from rfl]
        rw [if_neg hxn]
      · rw [if_neg hkx]
        rw [show alook ((k, v) :: t) x = alook t x from by simp [alook, hkx]]
        exact ih

theorem alook_mapVals {β : Type} (l : List (String × β)) (x : String)
    (u : β → β) :
    alook (mapVals l u) x = (alook l x).map u := by
  unfold mapVals
  induction l with
  | nil => simp [alook]
  | cons a t ih =>
    obtain ⟨k, v⟩ := a
    by_cases hkx : k = x
    · subst hkx; simp [alook]
    · simp [alook, hkx, ih]

/-- One nested-variant render only rewrites the contents of the target
record. -/
theorem render_ok_shape (tfs : TransformerMap) (metadata : Obj)
    (settings : Settings) (files coll : RecordMap) (filename : String)
    (files₁ : RecordMap)
    (h : render tfs metadata settings files coll filename = .ok files₁) :
    ∀ x r₁, alook files₁ x = some r₁ →
      ∃ r, alook files x = some r ∧ r₁.data = r.data ∧ r₁.layout = r.layout := by
  unfold render at h
  cases hf : alook files filename with
  | none => simp [hf] at h
  | some file =>
    simp only [hf] at h
    cases hgl : getLayout file settings with
    | str layoutname =>
      simp only [hgl] at h
      cases hc : alook coll layoutname with
      | none => simp [hc] at h
      | some layoutfile =>
        simp only [hc] at h
        cases ht : tfs (lastExt layoutname) with
        | none => simp [ht] at h
        | some transform =>
          simp only [ht] at h
          injection h with h
          subst h
          intro x r₁ hx
          rw [alook_updateAt] at hx
          cases hax : alook files x with
          | none => rw [hax] at hx; cases hx
          | some r =>
            rw [hax] at hx
            injection hx with hx
            subst hx
            by_cases hxf : x = filename
            · simp [hxf]
            · simp [hxf]
    | fls => simp [hgl] at h
    | absent => simp [hgl] at h

/-- The chained layout renders only rewrite contents. -/
theorem runEvents_shape (tfs : TransformerMap) (metadata : Obj)
    (settings : Settings) :
    ∀ (evs : List String) (C₀ C₁ : RecordMap),
      runEvents tfs metadata settings evs C₀ = .ok C₁ →
      ∀ x r₁, alook C₁ x = some r₁ →
        ∃ r, alook C₀ x = some r ∧ r₁.data = r.data ∧ r₁.layout = r.layout := by
  intro evs
  induction evs with
  | nil =>
    intro C₀ C₁ h x r₁ hx
    injection h with h
    subst h
    exact ⟨r₁, hx, rfl, rfl⟩
  | cons n t ih =>
    intro C₀ C₁ h x r₁ hx
    unfold runEvents at h
    cases hr : render tfs metadata settings C₀ C₀ n with
    | error e => simp [hr] at h
    | ok C' =>
      simp only [hr] at h
      obtain ⟨r', hr', hd', hl'⟩ := ih C' C₁ h x r₁ hx
      obtain ⟨r, hr₀, hd, hl⟩ := render_ok_shape tfs metadata settings C₀ C₀ n C' hr x r' hr'
      exact ⟨r, hr₀, hd'.trans hd, hl'.trans hl⟩

/-- After a successful renderNestedLayouts: every collection record has its
layout property removed and its data untouched, and the children, finished
and being-visited marker tables are empty. -/
theorem renderNestedLayouts_ok_shape (tfs : TransformerMap) (metadata : Obj)
    (settings : Settings) (C : RecordMap) (r : RNLok)
    (h : renderNestedLayouts tfs metadata settings C = .ok r) :
    (∀ x r₁, alook r.coll x = some r₁ →
      r₁.layout = .absent ∧ ∃ r₀, alook C x = some r₀ ∧ r₁.data = r₀.data) ∧
    r.ctbl = [] ∧ r.fin = [] ∧ r.seenL = [] := by
  unfold renderNestedLayouts at h
  have hspec := buildTree_spec C
  cases hbt : buildTree C with
  | err e => simp [hbt] at h
  | fuelOut => simp [hbt] at h
  | ok st =>
    simp only [hbt] at h
    rw [hbt] at hspec
    obtain ⟨hinv, hseen, _⟩ := hspec
    cases hrun : runEvents tfs metadata settings
        (renderEvents st.ctbl (C.length + 1) st.roots) C with
    | error e => simp [hrun] at h
    | ok C₁ =>
      simp only [hrun] at h
      injection h with h
      subst h
      refine ⟨?_, ?_, ?_, hseen⟩
      · intro x r₁ hx
        simp only at hx
        rw [alook_mapVals] at hx
        cases hax : alook C₁ x with
        | none => rw [hax] at hx; cases hx
        | some r₂ =>
          rw [hax] at hx
          injection hx with hx
          subst hx
          obtain ⟨r₀, hr₀, hd, _⟩ :=
            runEvents_shape tfs metadata settings _ C C₁ hrun x r₂ hax
          exact ⟨rfl, r₀, hr₀, hd⟩
      · simp only
        rw [List.filter_eq_nil_iff]
        intro pr hpr
        simp only [decide_not, Bool.not_eq_true', decide_eq_false_iff_not, not_not]
        exact alook_isSome_mem (hinv.ctblKeys pr hpr)
      · simp only
        rw [List.filter_eq_nil_iff]
        intro x hx
        simp only [decide_not, Bool.not_eq_true', decide_eq_false_iff_not, not_not]
        exact alook_isSome_mem (hinv.finKeys x hx)

/-! ## The context merge of the chain variant matches the specified merge -/

/-- The chain variant's per-step locals coincide with the specified merge:
the source's downward index loop realises the oldest-ancestor-first
overlay. -/
theorem chainStepLocals_eq_specMerge (C : RecordMap) (metadata : Obj)
    (file : FileRecord) (chain : List String) (contents : String) :
    chainStepLocals C metadata file chain contents =
      specMergedContext C metadata file chain contents := by
  unfold chainStepLocals specMergedContext chainBaseLocals
  rw [List.foldl_reverse]

/-! ## Claim theorems -/

/-- C1 (counterexample): the layout-forest rendering is NOT level-by-level.
On c1Coll the chained order is a, b, c: the depth-2 layout b renders before
the depth-1 layout c of the later subtree, so level 1 is not completed
before level 2 begins; and the parentless layouts r1, r2 are never rendered
at all. -/
theorem C1_cex :
    c1Events = ["a.njk", "b.njk", "c.njk"] ∧
    iterParent c1Coll 2 "b.njk" = some "r1.njk" ∧
    parentOf c1Coll "r1.njk" = none ∧
    iterParent c1Coll 1 "c.njk" = some "r2.njk" ∧
    parentOf c1Coll "r2.njk" = none ∧
    List.indexOf "b.njk" c1Events < List.indexOf "c.njk" c1Events ∧
    "r1.njk" ∉ c1Events ∧ "r2.njk" ∉ c1Events := by
  decide

/-- C1 (amended): for every collection whose tree construction succeeds, the
chained renders form a depth-first sequence in which each layout is rendered
at most once, parentless layouts are never rendered, every rendered
layout's render strictly precedes the render of each of its direct
children, and every layout with a parent is rendered once the fuel covers
the collection; there is no global level barrier. -/
theorem C1_chain_order :
    ∀ (C : RecordMap) (st : TreeSt), buildTree C = .ok st → ∀ fuel : Nat,
      (renderEvents st.ctbl fuel st.roots).Nodup ∧
      (∀ r ∈ st.roots, r ∉ renderEvents st.ctbl fuel st.roots) ∧
      (∀ c p E₁ E₂, parentOf C c = some p →
        renderEvents st.ctbl fuel st.roots = E₁ ++ c :: E₂ →
        p ∈ renderEvents st.ctbl fuel st.roots →
        p ∈ E₁ ∧ p ∉ c :: E₂) ∧
      (∀ c p, parentOf C c = some p → C.length + 1 ≤ fuel →
        c ∈ renderEvents st.ctbl fuel st.roots) := by
  intro C st h fuel
  have hspec := buildTree_spec C
  rw [h] at hspec
  obtain ⟨hinv, _, hall⟩ := hspec
  have H1 : tblParents C st.ctbl := fun q cl hq c hc => ((hinv.ctblOk q cl hq).1 c hc).1
  have H2 : ∀ q cl, alook st.ctbl q = some cl → cl.Nodup :=
    fun q cl hq => (hinv.ctblOk q cl hq).2
  have HNC : ∀ x n, iterParent C (n + 1) x ≠ some x :=
    fun x n hx => buildTree_ok_noCycle C st h ⟨x, n, hx⟩
  have hrootsPar : ∀ r ∈ st.roots, parentOf C r = none :=
    fun r hr => (hinv.rootsOk r hr).1
  have hnodup : (renderEvents st.ctbl fuel st.roots).Nodup :=
    renderEvents_nodup C st.ctbl H1 H2 HNC fuel st.roots hinv.rootsNodup
      (roots_noReach C st.roots hrootsPar)
  have hroots : ∀ r ∈ st.roots, r ∉ renderEvents st.ctbl fuel st.roots := by
    intro r hr hmem
    obtain ⟨q, cl, hq, hc⟩ := renderEvents_mem st.ctbl fuel st.roots r hmem
    have hsome := H1 q cl hq r hc
    rw [hrootsPar r hr] at hsome
    cases hsome
  refine ⟨hnodup, hroots, ?_, ?_⟩
  · intro c p E₁ E₂ hpc heq hpmem
    have hbefore :=
      renderEvents_parent_before C st.ctbl H1 fuel st.roots c p E₁ E₂ hpc heq
    have hpE₁ : p ∈ E₁ := by
      rcases hbefore with hp | hp
      · exact hp
      · exact absurd hpmem (hroots p hp)
    refine ⟨hpE₁, ?_⟩
    rw [heq, List.nodup_append] at hnodup
    exact hnodup.2.2 hpE₁
  · intro c p hpc hfu
    have HF : ∀ y, (alook C y).isSome → y ∈ st.finished :=
      fun y hy => hall y (alook_isSome_mem hy)
    have hcfin : c ∈ st.finished := HF c (parentOf_isSome C c p hpc)
    obtain ⟨k, r, hk, hit, hpr, hrm⟩ :=
      chase_root C st hinv st.finished hinv.finOrd (fun y hy => hy) c hcfin
    cases k with
    | zero =>
      have hcr : c = r := by
        simp only [iterParent] at hit
        injection hit
      rw [← hcr] at hpr
      rw [hpr] at hpc
      cases hpc
    | succ k₁ =>
      have hlen : st.finished.length ≤ C.length := by
        have hsb := nodup_subset_length st.finished (keysOf C) hinv.finNodup
          (fun x hx => alook_isSome_mem (hinv.finKeys x hx))
        simpa [keysOf] using hsb
      exact rooted_in_events C st hinv HF k₁ c r hit hrm fuel (by omega)

/-- C1 (witness): the amended theorem applied to a concrete two-layout
forest. -/
theorem C1_witness :
    buildTree c1wColl = .ok c1wSt ∧
    ((renderEvents c1wSt.ctbl 3 c1wSt.roots).Nodup ∧
     (∀ r ∈ c1wSt.roots, r ∉ renderEvents c1wSt.ctbl 3 c1wSt.roots) ∧
     (∀ c p E₁ E₂, parentOf c1wColl c = some p →
        renderEvents c1wSt.ctbl 3 c1wSt.roots = E₁ ++ c :: E₂ →
        p ∈ renderEvents c1wSt.ctbl 3 c1wSt.roots →
        p ∈ E₁ ∧ p ∉ c :: E₂) ∧
     (∀ c p, parentOf c1wColl c = some p → c1wColl.length + 1 ≤ 3 →
        c ∈ renderEvents c1wSt.ctbl 3 c1wSt.roots)) :=
  ⟨by decide, C1_chain_order c1wColl c1wSt (by decide) 3⟩

/-- C2 (counterexample): a collection with a cycle (self.njk) whose pass
fails with the undefined-parent TypeError raised for the dangling reference
of m0.njk, not with a circular-dependency error. -/
theorem C2_cex :
    iterParent c2xColl 1 "self.njk" = some "self.njk" ∧
    buildTree c2xColl = .err (.typeErrored "none.njk") ∧
    isCircularErr (buildTree c2xColl) = false := by
  decide

/-- C2 (amended): for every collection whose parent relation has a cycle
AND whose layout references all resolve, tree construction throws the
circular-dependency error, naming a layout that lies on a cycle, and
renderNestedLayouts propagates that error without performing any render. -/
theorem C2_cycle_error :
    ∀ C : RecordMap, HasCycle C → allResolve C = true →
      ∃ m, buildTree C = .err (.circular m) ∧
        (∃ n, iterParent C (n + 1) m = some m) ∧
        ∀ (tfs : TransformerMap) (metadata : Obj) (settings : Settings),
          renderNestedLayouts tfs metadata settings C = .terr (.circular m) := by
  intro C hcyc hres
  have hspec := buildTree_spec C
  cases hout : buildTree C with
  | ok st =>
    rw [hout] at hspec
    obtain ⟨hinv, _, hall⟩ := hspec
    obtain ⟨x, n, hx⟩ := hcyc
    exact absurd hx
      (okOrder_no_cycle C st.finished hinv.finOrd x (hall x (cycle_mem_keys C x n hx)) n)
  | err e =>
    cases e with
    | circular m =>
      rw [hout] at hspec
      exact ⟨m, rfl, hspec, fun tfs md s => by simp [renderNestedLayouts, hout]⟩
    | typeErrored p =>
      rw [hout] at hspec
      obtain ⟨hnone, x, r, hx, hp⟩ := hspec
      have hxk : x ∈ keysOf C := alook_isSome_mem (by simp [hx])
      unfold allResolve at hres
      have hx₁ := List.all_eq_true.mp hres x hxk
      simp only [show parentOf C x = some p from by simp [parentOf, hx, hp]] at hx₁
      rw [hnone] at hx₁
      simp at hx₁
  | fuelOut =>
    rw [hout] at hspec
    exact hspec.elim

/-- C2 (witness): the amended theorem applied to the two-cycle a ↔ b, whose
references all resolve. -/
theorem C2_witness :
    HasCycle c2wColl ∧ allResolve c2wColl = true ∧
    (∃ m, buildTree c2wColl = .err (.circular m) ∧
      (∃ n, iterParent c2wColl (n + 1) m = some m) ∧
      ∀ (tfs : TransformerMap) (metadata : Obj) (settings : Settings),
        renderNestedLayouts tfs metadata settings c2wColl = .terr (.circular m)) :=
  ⟨⟨"a.njk", 1, by decide⟩, by decide,
   C2_cycle_error c2wColl ⟨"a.njk", 1, by decide⟩ (by decide)⟩

/-- C3 (counterexample): at the spec's own example (shared metadata a=1,
ancestor layout data a=2 b=2, content data a=3), the nested variant's render
context has no b at all, while the claimed merge yields b=2: the nested
render omits the ancestor-chain overlay. -/
theorem C3_cex :
    lookupObj (nestedLocals c3Metadata c3File "hello") "b" = none ∧
    lookupObj (specMergedContext c3Coll c3Metadata c3File ["l.njk"] "hello") "b"
      = some (.vnat 2) ∧
    lookupObj (nestedLocals c3Metadata c3File "hello") "a" = some (.vnat 3) ∧
    lookupObj (specMergedContext c3Coll c3Metadata c3File ["l.njk"] "hello") "a"
      = some (.vnat 3) := by
  decide

/-- C3 (amended): the chain variant's render context equals the claimed
merge (metadata, then ancestors oldest-first, then the node's own record,
then contents) for every node and chain — in particular a=3, b=2 on the
spec's example — while the nested variant's context merges no ancestor
data: it equals the claimed merge with an empty ancestor chain, so b is
absent on the example. -/
theorem C3_context_merge :
    (∀ (C : RecordMap) (metadata : Obj) (file : FileRecord)
        (chain : List String) (contents : String),
      chainStepLocals C metadata file chain contents =
        specMergedContext C metadata file chain contents) ∧
    (∀ (C : RecordMap) (metadata : Obj) (file : FileRecord) (contents : String),
      nestedLocals metadata file contents =
        specMergedContext C metadata file [] contents) ∧
    (lookupObj (chainStepLocals c3Coll c3Metadata c3File ["l.njk"] "hello") "a"
        = some (.vnat 3) ∧
     lookupObj (chainStepLocals c3Coll c3Metadata c3File ["l.njk"] "hello") "b"
        = some (.vnat 2) ∧
     lookupObj (nestedLocals c3Metadata c3File "hello") "b" = none) :=
  ⟨chainStepLocals_eq_specMerge,
   fun C metadata file contents => rfl,
   by decide⟩

/-- C4 (code bug): the nested variant's content-phase Promise.all is not
returned from its .then, so a failed content render (missing layout) is
swallowed and the completion callback reports plain success. -/
theorem C4_bug :
    (pluginNested globFn utf8All njkTf [] "layouts" [] stdSettings c4Files).doneCalls
      = [.success] ∧
    (pluginNested globFn utf8All njkTf [] "layouts" [] stdSettings c4Files).contentResults
      = [("index.md", some (.cannotFind "missing.njk"))] := by
  decide

/-- C5 (code bug): with the layout directory outside the source tree the
nested variant pushes the negation of `path.join('', '**') = '**'`, so every
file is excluded: index.md meets all four membership conditions (pattern,
layout name with extension, UTF-8, transformer) yet the nested Content Set
is empty and the pass reports no-files; the chain variant guards the push
and accepts the file. -/
theorem C5_bug :
    validate utf8All njkTf c5Files stdSettings "index.md" = true ∧
    multimatch globFn (keysOf c5Files) ["**"] = ["index.md"] ∧
    (pluginNested globFn utf8All njkTf c5ExtColl "" [] stdSettings c5Files).validFiles
      = [] ∧
    (pluginNested globFn utf8All njkTf c5ExtColl "" [] stdSettings c5Files).doneCalls
      = [.failure .noFiles, .success] ∧
    (pluginChain globFn utf8All njkTf c5ExtColl "" [] stdSettings c5Files).validFiles
      = ["index.md"] ∧
    (pluginChain globFn utf8All njkTf c5ExtColl "" [] stdSettings c5Files).doneCalls
      = [.success] := by
  decide

/-- C6 (counterexample): a record with an explicitly present but empty
layout property does not resolve to that property: getLayout falls through
to the configured default. -/
theorem C6_cex :
    c6File.layout = .str "" ∧
    getLayout c6File c6Settings = .str "d.njk" ∧
    getLayout c6File c6Settings ≠ c6File.layout := by
  decide

/-- C6 (amended): layout resolution returns the explicit layout property
when it is a non-empty name; the disabled sentinel false yields no layout
and excludes the file; an absent (or empty) layout property falls back to
the configured default; with neither an explicit non-empty/disabled layout
nor a default, the record has no layout and is excluded from processing. -/
theorem C6_layout_resolution :
    (∀ (f : FileRecord) (s : Settings) (n : String),
      f.layout = .str n → n ≠ "" → getLayout f s = .str n) ∧
    (∀ (f : FileRecord) (s : Settings), f.layout = .fls →
      getLayout f s = .fls ∧
      ∀ (utf8 : String → Bool) (tfs : TransformerMap) (files : RecordMap)
        (fn : String), alook files fn = some f →
        validate utf8 tfs files s fn = false) ∧
    (∀ (f : FileRecord) (s : Settings),
      f.layout = .absent ∨ f.layout = .str "" →
      getLayout f s = (match s.deflt with | some d => .str d | none => .absent)) ∧
    (∀ (f : FileRecord) (s : Settings),
      (f.layout = .absent ∨ f.layout = .str "") → s.deflt = none →
      getLayout f s = .absent ∧
      ∀ (utf8 : String → Bool) (tfs : TransformerMap) (files : RecordMap)
        (fn : String), alook files fn = some f →
        validate utf8 tfs files s fn = false) := by
  refine ⟨?_, ?_, ?_, ?_⟩
  · intro f s n hl hn
    simp [getLayout, hl, hn]
  · intro f s hl
    refine ⟨by simp [getLayout, hl], ?_⟩
    intro utf8 tfs files fn hf
    simp [validate, hf, getLayout, hl]
  · intro f s hl
    rcases hl with hl | hl <;> simp [getLayout, hl]
  · intro f s hl hd
    have hgl : getLayout f s = .absent := by
      rcases hl with hl | hl <;> simp [getLayout, hl, hd]
    refine ⟨hgl, ?_⟩
    intro utf8 tfs files fn hf
    simp [validate, hf, hgl]

/-- C6 (witness): the amended resolution applied at concrete records. -/
theorem C6_witness :
    getLayout ⟨"x", .str "page.njk", []⟩ c6Settings = .str "page.njk" ∧
    getLayout ⟨"x", .fls, []⟩ c6Settings = .fls ∧
    getLayout ⟨"x", .absent, []⟩ stdSettings = .absent :=
  ⟨C6_layout_resolution.1 _ _ "page.njk" rfl (by decide),
   (C6_layout_resolution.2.1 _ c6Settings rfl).1,
   (C6_layout_resolution.2.2.2 _ _ (Or.inl rfl) rfl).1⟩

/-- C7 (code bug): with zero valid content files the nested variant invokes
done with the no-files error but, lacking an else, continues the pass: the
child layout a.njk is rendered and done is invoked a second time with
success. -/
theorem C7_bug :
    (pluginNested globFn utf8All njkTf [] "layouts" [] stdSettings c7Files).doneCalls
      = [.failure .noFiles, .success] ∧
    (pluginNested globFn utf8All njkTf [] "layouts" [] stdSettings c7Files).layoutEvents
      = ["a.njk"] ∧
    (pluginNested globFn utf8All njkTf [] "layouts" [] stdSettings c7Files).validFiles
      = [] := by
  decide

/-- C8: with a pattern option that is neither a string nor an array, both
variants invoke the completion callback first with the configuration error,
and neither renders anything (the nested variant then crashes on
pattern.push; the chain variant either crashes or falls through to an empty
match). -/
theorem C8_invalid_pattern :
    ∀ (glob : String → String → Bool) (utf8 : String → Bool)
      (tfs : TransformerMap) (extColl : RecordMap) (layoutsRel : String)
      (metadata : Obj) (options : Settings) (files : RecordMap),
      options.pattern = .pother →
      (pluginNested glob utf8 tfs extColl layoutsRel metadata options files).doneCalls
        = [.failure .invalidPattern] ∧
      (pluginNested glob utf8 tfs extColl layoutsRel metadata options files).layoutEvents
        = [] ∧
      (pluginNested glob utf8 tfs extColl layoutsRel metadata options files).contentResults
        = [] ∧
      (pluginChain glob utf8 tfs extColl layoutsRel metadata options files).doneCalls.head?
        = some (.failure .invalidPattern) ∧
      (pluginChain glob utf8 tfs extColl layoutsRel metadata options files).layoutEvents
        = [] ∧
      (pluginChain glob utf8 tfs extColl layoutsRel metadata options files).contentResults
        = [] := by
  intro glob utf8 tfs extColl layoutsRel metadata options files h
  obtain ⟨po, de, eo⟩ := options
  simp only at h
  subst h
  by_cases hrel : layoutsRel = "" <;>
    simp [pluginNested, pluginChain, hrel]

/-- C8 (witness): the theorem applied at a concrete invalid configuration. -/
theorem C8_witness :
    (pluginNested globFn utf8All njkTf [] "layouts" [] ⟨.pother, none, "E"⟩ []).doneCalls
      = [.failure .invalidPattern] ∧
    (pluginNested globFn utf8All njkTf [] "layouts" [] ⟨.pother, none, "E"⟩ []).layoutEvents
      = [] ∧
    (pluginNested globFn utf8All njkTf [] "layouts" [] ⟨.pother, none, "E"⟩ []).contentResults
      = [] ∧
    (pluginChain globFn utf8All njkTf [] "layouts" [] ⟨.pother, none, "E"⟩ []).doneCalls.head?
      = some (.failure .invalidPattern) ∧
    (pluginChain globFn utf8All njkTf [] "layouts" [] ⟨.pother, none, "E"⟩ []).layoutEvents
      = [] ∧
    (pluginChain globFn utf8All njkTf [] "layouts" [] ⟨.pother, none, "E"⟩ []).contentResults
      = [] :=
  C8_invalid_pattern globFn utf8All njkTf [] "layouts" [] ⟨.pother, none, "E"⟩ [] rfl

/-- C9: after a successful renderNestedLayouts, every collection record has
its layout property removed and its data unchanged (only contents was
rewritten), and the children, finished and being-visited marker tables are
all empty: no stale dependency state survives the pass. -/
theorem C9_cleanup :
    ∀ (tfs : TransformerMap) (metadata : Obj) (settings : Settings)
      (C : RecordMap) (r : RNLok),
      renderNestedLayouts tfs metadata settings C = .ok r →
      (∀ x r₁, alook r.coll x = some r₁ →
        r₁.layout = .absent ∧ ∃ r₀, alook C x = some r₀ ∧ r₁.data = r₀.data) ∧
      r.ctbl = [] ∧ r.fin = [] ∧ r.seenL = [] :=
  fun tfs metadata settings C r h =>
    renderNestedLayouts_ok_shape tfs metadata settings C r h

/-- C9 (witness): the cleanup theorem applied to a concrete two-layout
collection whose child a.njk was rendered. -/
theorem C9_witness :
    renderNestedLayouts njkTf [] stdSettings c9Coll = .ok c9Res ∧
    alook c9Res.coll "a.njk" = some ⟨"B[E|A]", .absent, []⟩ ∧
    c9Res.ctbl = [] ∧ c9Res.fin = [] ∧ c9Res.seenL = [] :=
  ⟨by decide, by decide,
   (C9_cleanup njkTf [] stdSettings c9Coll c9Res (by decide)).2.1,
   (C9_cleanup njkTf [] stdSettings c9Coll c9Res (by decide)).2.2.1,
   (C9_cleanup njkTf [] stdSettings c9Coll c9Res (by decide)).2.2.2⟩

/-- C10 (counterexample): a collection with a dangling parent reference
(d.njk names the absent ghost.njk) whose pass nevertheless aborts with the
circular-dependency error for loop.njk, which the walk reaches first — not
by accessing an undefined parent record. -/
theorem C10_cex :
    buildTree c10xColl = .err (.circular "loop.njk") ∧
    hasDangling c10xColl = true ∧
    isTypeErr (buildTree c10xColl) = false := by
  decide

/-- C10 (amended): for every cycle-free collection containing a dangling
parent reference, tree construction aborts (before any render) with the
TypeError from accessing the undefined parent record, naming a genuinely
missing parent, and renderNestedLayouts propagates it. -/
theorem C10_dangling_parent :
    ∀ C : RecordMap, hasDangling C = true → ¬ HasCycle C →
      ∃ p, buildTree C = .err (.typeErrored p) ∧ alook C p = none ∧
        (∃ x r, alook C x = some r ∧ hasParent r = some p) ∧
        ∀ (tfs : TransformerMap) (metadata : Obj) (settings : Settings),
          renderNestedLayouts tfs metadata settings C = .terr (.typeErrored p) := by
  intro C hdang hnc
  have hspec := buildTree_spec C
  cases hout : buildTree C with
  | ok st =>
    rw [hout] at hspec
    obtain ⟨hinv, _, hall⟩ := hspec
    unfold hasDangling at hdang
    obtain ⟨x, hxk, hxp⟩ := List.any_eq_true.mp hdang
    cases hp : parentOf C x with
    | none => simp only [hp] at hxp; cases hxp
    | some p =>
      simp only [hp] at hxp
      have hres := hinv.finResolve x (hall x hxk) p hp
      rw [Option.isNone_iff_eq_none.mp hxp] at hres
      cases hres
  | err e =>
    cases e with
    | circular m =>
      rw [hout] at hspec
      obtain ⟨n, hn⟩ := hspec
      exact absurd ⟨m, n, hn⟩ hnc
    | typeErrored p =>
      rw [hout] at hspec
      exact ⟨p, rfl, hspec.1, hspec.2,
        fun tfs md s => by simp [renderNestedLayouts, hout]⟩
  | fuelOut =>
    rw [hout] at hspec
    exact hspec.elim

/-- c10wColl has no cycle: its single record's parent is absent. -/
theorem c10wColl_noCycle : ¬ HasCycle c10wColl := by
  rintro ⟨x, n, hx⟩
  have hmem := cycle_mem_keys c10wColl x n hx
  have hx₁ : x = "m.njk" := by
    simpa [c10wColl, keysOf, plainRec] using hmem
  subst hx₁
  simp only [iterParent] at hx
  rw [show parentOf c10wColl "m.njk" = some "zzz.njk" from by decide] at hx
  cases n with
  | zero =>
    simp only [iterParent] at hx
    exact absurd hx (by decide)
  | succ n =>
    simp only [iterParent] at hx
    have hx₁ : (parentOf c10wColl "zzz.njk").bind (iterParent c10wColl n)
        = some "m.njk" := hx
    rw [show parentOf c10wColl "zzz.njk" = none from by decide] at hx₁
    simp at hx₁

/-- C10 (witness): the amended theorem applied to the single dangling
layout m.njk → zzz.njk. -/
theorem C10_witness :
    hasDangling c10wColl = true ∧ ¬ HasCycle c10wColl ∧
    (∃ p, buildTree c10wColl = .err (.typeErrored p) ∧
      alook c10wColl p = none ∧
      (∃ x r, alook c10wColl x = some r ∧ hasParent r = some p) ∧
      ∀ (tfs : TransformerMap) (metadata : Obj) (settings : Settings),
        renderNestedLayouts tfs metadata settings c10wColl
          = .terr (.typeErrored p)) :=
  ⟨by decide, c10wColl_noCycle,
   C10_dangling_parent c10wColl (by decide) c10wColl_noCycle⟩

end MNL
